import Mathlib

/-
Verification of the Panda3D egg exporter (io_export_egg.py).

The Python source is shallowly embedded into Lean:
- Python dicts are modeled as insertion-ordered association lists
  (List (key, value)); assignment d[k] = v updates the first binding in
  place when the key is present and appends a fresh binding otherwise,
  exactly like a CPython dict preserves insertion order.
- Python floats are modeled as exact rationals; the percent-style decimal
  formatting of a float is modeled as exact rational rounding (half up)
  followed by fixed-point printing. No claim here depends on the tie
  direction of the binary rounding.
- Writes to the output stream are modeled as structured records holding
  the same fields the source interpolates into the text, in the same
  order; raising of a Python exception (KeyError, IndexError, NameError,
  AttributeError) is modeled as Except.error naming the exception.
- The filesystem is not modeled: os.mkdir is assumed to succeed,
  os.path.realpath is modeled as path normalization (no symlinks), and
  image.save_render is modeled as an emitted copy action.
-/

set_option synthInstance.maxSize 4096

namespace EggExport

/-! ## Association-list model of Python dicts -/

/-- Lookup of a key in an insertion-ordered dict, first binding wins. -/
def dget {α β : Type} [DecidableEq α] : List (α × β) → α → Option β
  | [], _ => none
  | p :: d, a => if p.1 = a then some p.2 else dget d a

/-- Keys of a dict in insertion order. -/
def dkeys {α β : Type} (d : List (α × β)) : List α :=
  d.map Prod.fst

/-- Python dict assignment d[k] = v: overwrite in place when the key is
present, append a fresh binding otherwise. -/
def dset {α β : Type} [DecidableEq α] (d : List (α × β)) (k : α) (v : β) : List (α × β) :=
  if (dget d k).isSome then d.map (fun p => if p.1 = k then (k, v) else p) else d ++ [(k, v)]

/-! ## String helpers mirroring the Python standard library -/

/-- Python str.replace for single-character arguments. -/
def strReplace (s : String) (a b : Char) : String :=
  String.mk (s.data.map (fun c => if c = a then b else c))

/-- Python str.split on a single separator character; the result is always
a non-empty list of fragments. -/
def splitChar : List Char → Char → List (List Char)
  | [], _ => [[]]
  | x :: xs, c =>
    let r := splitChar xs c
    if x = c then [] :: r
    else
      match r with
      | [] => [[x]]
      | y :: ys => (x :: y) :: ys

/-- Index of the last occurrence of a character, as in Python str.rfind. -/
def rfindIdx : List Char → Char → Option Nat
  | [], _ => none
  | x :: xs, c =>
    match rfindIdx xs c with
    | some i => some (i + 1)
    | none => if x = c then some 0 else none

/-- Part of a POSIX path after the last slash, as in os.path.basename. -/
def basename (s : String) : String :=
  String.mk ((splitChar s.data '/').getLastD [])

/-- Stem part of os.path.splitext, following CPython: split at the last
dot that comes after the last slash, unless every character between the
slash and that dot is itself a dot (dotfiles keep their name whole). -/
def splitextStem (p : List Char) : List Char :=
  match rfindIdx p '.' with
  | none => p
  | some d =>
    let f : Nat :=
      match rfindIdx p '/' with
      | some i => i + 1
      | none => 0
    if f ≤ d then
      if ((p.drop f).take (d - f)).any (fun x => x ≠ '.') then p.take d else p
    else p

/-! ## The name sanitizers (source lines 61-82) -/

/-- Source good_file_name: basename, drop the extension, then replace
spaces and dashes with underscores. -/
def good_file_name (filepath : String) : String :=
  let filename := basename filepath
  let name := String.mk (splitextStem filename.data)
  strReplace (strReplace name ' ' '_') '-' '_'

/-- Source good_bone_name: replace dots and dashes with underscores. -/
def good_bone_name (bone_name : String) : String :=
  strReplace (strReplace bone_name '.' '_') '-' '_'

/-- Source good_mesh_name: keep only the fragment after the last colon. -/
def good_mesh_name (mesh_name : String) : String :=
  String.mk ((splitChar mesh_name.data ':').getLastD [])

/-- Source good_texture_name: basename with dots replaced by underscores. -/
def good_texture_name (filepath : String) : String :=
  strReplace (basename filepath) '.' '_'

/-- Source good_material_name: replace spaces with underscores, then keep
only the fragment after the last colon. -/
def good_material_name (material_name : String) : String :=
  String.mk ((splitChar (strReplace material_name ' ' '_').data ':').getLastD [])

/-- Reference function: the suffix of a list after the last occurrence of
the separator, used to characterize the last fragment of splitChar. -/
def afterLastSep (c : Char) : List Char → List Char
  | [] => []
  | x :: xs => if c ∈ xs then afterLastSep c xs else if x = c then xs else x :: xs

/-! ## Fixed-point decimal formatting (part of a definition group)

Models the percent-style / str.format fixed-point formatting of a Python
float at a given precision. The binary float is modeled as an exact
rational and the decimal rounding as rounding half up; no claim below
depends on the tie direction. -/

/-- Exactly p decimal digit characters of m, most significant first,
truncated or zero-padded on the left to width p. -/
def digitChars : Nat → Nat → List Char
  | 0, _ => []
  | q + 1, m => digitChars q (m / 10) ++ [Char.ofNat (48 + m % 10)]

/-- Decimal digits of a natural number, via an explicit fuel argument
(the number itself always suffices). -/
def natDigitsAux : Nat → Nat → List Char
  | 0, _ => []
  | _ + 1, 0 => []
  | fuel + 1, m + 1 => natDigitsAux fuel ((m + 1) / 10) ++ [Char.ofNat (48 + (m + 1) % 10)]

def natDigits (n : Nat) : List Char :=
  if n = 0 then ['0'] else natDigitsAux n n

/-- Rounding half up of q times 10 to the prec, computed as the floor
division (2 num 10^prec + den) fdiv (2 den), which equals the floor of
q 10^prec + 1/2. Integer arithmetic on the numerator and denominator is
used so the definition evaluates by kernel reduction. -/
def pyRound (prec : Nat) (q : ℚ) : ℤ :=
  Int.fdiv (2 * q.num * ((10 ^ prec : ℕ) : ℤ) + (q.den : ℤ)) (2 * (q.den : ℤ))

/-- Fixed-point formatting of a rational at the given precision. -/
def fmtFixed (prec : Nat) (q : ℚ) : String :=
  let n : ℤ := pyRound prec q
  let sign : List Char := if n < 0 then ['-'] else []
  let m := n.natAbs
  String.mk (sign ++ natDigits (m / 10 ^ prec) ++ '.' :: digitChars prec (m % 10 ^ prec))

/-! ## Scene data model

Read-only views of the Blender scene consumed by the exporter. Only the
attributes the source reads are modeled. Object data and object are
collapsed into one record (the source reads mesh_obj.data immediately).
Optional attributes that can be Python None are Option. -/

/-- Three-component vector of exact rationals, modeling mathutils Vector
coordinates. -/
structure Vec3 where
  x : ℚ
  y : ℚ
  z : ℚ

/-- Componentwise difference, modeling mathutils Vector subtraction. -/
def vsub (a b : Vec3) : Vec3 :=
  { x := a.x - b.x, y := a.y - b.y, z := a.z - b.z }

structure ImageData where
  filepath : String
  colorspace_name : String
  use_alpha : Bool
  source : String

structure TextureData where
  tname : String
  ttype : String
  image : Option ImageData
  extension : String
  repeat_x : ℚ
  repeat_y : ℚ

structure TSlotData where
  texture : TextureData
  texture_coords : String
  mapping : String

structure ColorRGB where
  r : ℚ
  g : ℚ
  b : ℚ

structure MaterialData where
  name : String
  diffuse_color : ColorRGB
  specular_color : ColorRGB
  specular_alpha : ℚ
  ambient : ℚ
  emit : ℚ
  specular_hardness : ℚ
  texture_slots : List (Option TSlotData)

structure VertWeight where
  group : Nat
  weight : ℚ

structure MVertex where
  index : Nat
  co : Vec3
  normal : Vec3
  groups : List VertWeight

/-- One bmesh loop incident to a vertex; the active UV layer value of the
loop is modeled as its uv field. -/
structure BMLoop where
  uv : ℚ × ℚ
  face_material_index : Nat

structure BMVert where
  link_loops : List BMLoop

structure PolyData where
  index : Nat
  loop_indices : List Nat
  material_index : Nat

/-- A mesh object together with its mesh data: the object attributes
(name, type, vertex_groups, active_material) and the data attributes
(vertices, materials, polygons, loops) the source reads, plus the
bmesh per-vertex loop table built by bmesh.from_mesh. -/
structure MeshObj where
  name : String
  otype : String
  vertex_groups : List String
  vertices : List MVertex
  materials : List (Option MaterialData)
  active_material : Option MaterialData
  polygons : List PolyData
  loops : List Nat
  bmverts : List BMVert

/-- A bone with its children; data.bones is the preorder flattening of
the root forest, and bone.parent is represented by the position in the
tree (roots have none). -/
inductive BoneTree where
  | node (name : String) (head_local : Vec3) (children : List BoneTree)

/-- The armature data: the forest of root bones. -/
structure Armature where
  bones : List BoneTree

/-- The selected armature object with its child objects. The global
bpy.data.objects registry is modeled by the children list itself; Blender
object names are unique, which the theorems assume as Nodup hypotheses. -/
structure HumanObj where
  children : List MeshObj
  data : Armature

mutual
def boneTreeNames : BoneTree → List String
  | .node n _ cs => n :: boneForestNames cs
def boneForestNames : List BoneTree → List String
  | [] => []
  | t :: ts => boneTreeNames t ++ boneForestNames ts
end

/-- Names of skel.bones, the flat bone list of the armature data. -/
def armBoneNames (a : Armature) : List String :=
  boneForestNames a.bones

/-! ## POSIX path helpers mirroring os.path

The exporter passes absolute paths (the export file dialog provides an
absolute filepath), so os.getcwd prefixing in abspath and symlink
resolution in realpath are not modeled. -/

/-- Join of path fragments into one path with single slashes. -/
def joinComps : List (List Char) → List Char
  | [] => []
  | [c] => c
  | c :: cs => c ++ '/' :: joinComps cs

/-- POSIX os.path.normpath: drop empty and dot components and resolve
dot-dot components where possible. -/
def normpath (p : String) : String :=
  if p = "" then "." else
  let isAbs : Bool := p.data.head? = some '/'
  let comps := splitChar p.data '/'
  let newComps := comps.foldl (fun acc comp =>
    if comp = [] ∨ comp = ['.'] then acc
    else if comp ≠ ['.', '.'] ∨ (isAbs = false ∧ acc = []) ∨ acc.getLast? = some ['.', '.'] then
      acc ++ [comp]
    else if acc ≠ [] then acc.dropLast
    else acc) ([] : List (List Char))
  let body := joinComps newComps
  let res := if isAbs then '/' :: body else body
  if res = [] then "." else String.mk res

/-- POSIX os.path.abspath restricted to absolute inputs. -/
def abspath (p : String) : String :=
  normpath p

/-- POSIX os.path.realpath with no symlinks to resolve. -/
def realpath (p : String) : String :=
  abspath p

/-- POSIX os.path.dirname. -/
def dirname (p : String) : String :=
  match rfindIdx p.data '/' with
  | none => ""
  | some i =>
    let head := p.data.take (i + 1)
    if head.all (fun c => c = '/') then String.mk head
    else String.mk ((head.reverse.dropWhile (fun c => c = '/')).reverse)

/-- POSIX os.path.join for two fragments. -/
def pathJoin (a b : String) : String :=
  if b.data.head? = some '/' then b
  else if a = "" then b
  else if a.data.getLast? = some '/' then String.mk (a.data ++ b.data)
  else String.mk (a.data ++ '/' :: b.data)

def commonPrefixLen : List (List Char) → List (List Char) → Nat
  | a :: as, b :: bs => if a = b then 1 + commonPrefixLen as bs else 0
  | _, _ => 0

/-- POSIX os.path.relpath for absolute inputs. -/
def relpath (p start : String) : String :=
  let pl := (splitChar (abspath p).data '/').filter (fun c => c ≠ [])
  let sl := (splitChar (abspath start).data '/').filter (fun c => c ≠ [])
  let i := commonPrefixLen sl pl
  let rel := List.replicate (sl.length - i) ['.', '.'] ++ pl.drop i
  if rel = [] then "." else String.mk (joinComps rel)

/-! ## The export worker (source lines 85-136) -/

/-- The mutable state of ExportEggWorker: the configuration captured by
__init__ plus the copied-files registry. The output stream handle is not
a field here; writes are modeled as returned records. -/
structure EggWorker where
  human : HumanObj
  precision : Nat
  use_rel_paths : Bool
  copied_files : List (String × Bool)
  filepath : String
  filename : String
  out_folder : String
  separate_tex_folder : String
  tex_folder : String

/-- Source ExportEggWorker.__init__ together with _setup_tex_folder and
_get_sub_folder. Note that line 87 of the source assigns the literal True
to the use_rel_paths field, ignoring the constructor parameter. Creation
of the textures subfolder is assumed to succeed (no filesystem model). -/
def ExportEggWorker.init (human : HumanObj) (weight_precision : Nat)
    (filepath : String) (use_rel_paths : Bool) : EggWorker :=
  let outFolder := realpath (dirname filepath)
  { human := human
    precision := weight_precision
    use_rel_paths := true
    copied_files := []
    filepath := filepath
    filename := good_file_name filepath
    out_folder := outFolder
    separate_tex_folder := "textures"
    tex_folder := pathJoin outFolder "textures" }

/-- Result of one _copy_texture_to_new_location call: the returned path,
the copy operations performed (the image.save_render calls issued), and
the updated worker state. -/
structure CopyResult where
  path : String
  copies : List String
  worker : EggWorker

/-- Source _copy_texture_to_new_location: compute the destination inside
the textures folder, copy unless the source path is already registered,
register it, and return the relative or absolute destination path
according to the use_rel_paths field. -/
def copy_texture_to_new_location (w : EggWorker) (image : ImageData) : CopyResult :=
  let filepath := image.filepath
  let filename := basename filepath
  let newpath := abspath (pathJoin w.tex_folder filename)
  let done := (dget w.copied_files filepath).isSome
  let copies := if done then [] else [newpath]
  let w1 := if done then w else { w with copied_files := dset w.copied_files filepath true }
  let ret := if w1.use_rel_paths then normpath (relpath newpath w1.out_folder) else newpath
  { path := ret, copies := copies, worker := w1 }

/-- Source _write_bone_translation: the head position, made relative to
the parent head when a parent exists, each coordinate written at five
decimal places. The write of the Translate line is modeled as the triple
of formatted coordinate strings. -/
def write_bone_translation (parentHead : Option Vec3) (head_local : Vec3) :
    String × String × String :=
  let loc := head_local
  let loc :=
    match parentHead with
    | some p => vsub loc p
    | none => loc
  (fmtFixed 5 loc.x, fmtFixed 5 loc.y, fmtFixed 5 loc.z)

/-- An armature object with no children and no bones, used as a minimal
scene for concrete evaluations. -/
def emptyHuman : HumanObj :=
  { children := [], data := { bones := [] } }

/-- A worker constructed with relative paths requested, on a fresh state. -/
def sampleWorker : EggWorker :=
  ExportEggWorker.init emptyHuman 4 "/scene/out.egg" true

/-- A file-backed sRGB image. -/
def sampleImage : ImageData :=
  { filepath := "/scene/tex/skin.png", colorspace_name := "sRGB", use_alpha := false,
    source := "FILE" }

/-- A file-backed image with an unrecognized color space. -/
def sampleImageLinear : ImageData :=
  { filepath := "/scene/tex/norm.png", colorspace_name := "Non-Color", use_alpha := false,
    source := "FILE" }

/-! ## Skin weight index builder (source lines 234-283) -/

/-- Per-vertex dict from group index to weight. -/
abbrev VGDict := List (Nat × ℚ)

/-- Dict from vertex index to its group-weight dict. -/
abbrev VDict := List (Nat × VGDict)

/-- Dict from quantized weight string to the vertex indices sharing it. -/
abbrev WDict := List (String × List Nat)

/-- Dict from mesh name to its bucket table. -/
abbrev MDict := List (String × WDict)

/-- Dict from bone name to its per-mesh tables. -/
abbrev BWDict := List (String × MDict)

/-- Source _mesh_to_weight_dict: the object's group names and, vertex by
vertex and group by group, the per-vertex dict of in-range group weights;
group indices at or beyond the group-name count are skipped, and with no
vertex groups at all the empty dict is returned at once. -/
def mesh_to_weight_dict (mesh_obj : MeshObj) : List String × VDict :=
  let group_names := mesh_obj.vertex_groups
  let group_names_tot := group_names.length
  if group_names_tot = 0 then (group_names, [])
  else
    let weight_dict := mesh_obj.vertices.foldl (fun wd v =>
      v.groups.foldl (fun wd g =>
        if g.group < group_names_tot then
          dset wd v.index (dset ((dget wd v.index).getD []) g.group g.weight)
        else wd) wd) ([] : VDict)
    (group_names, weight_dict)

/-- Append a vertex index into the bucket of a quantized weight string,
creating the bucket when absent (source lines 279-282). -/
def addTriple (weights : WDict) (weight_str : String) (v_index : Nat) : WDict :=
  match dget weights weight_str with
  | none => dset weights weight_str [v_index]
  | some l => dset weights weight_str (l ++ [v_index])

/-- One iteration of the innermost loop of _meshes_to_weight_dict for the
triple (v_index, g_index, weight): resolve the bone name from the group
index, quantize, look up the bucket table of the bone and mesh (a missing
key raises KeyError, modeled as none), and append the vertex index under
its quantized weight when the weight is not zero. -/
def processTriple (fmt : ℚ → String) (group_names : List String) (mesh_name : String)
    (bwd : BWDict) (v_index g_index : Nat) (weight : ℚ) : Option BWDict :=
  match group_names[g_index]? with
  | none => none
  | some bone_name =>
    let weight_str := fmt weight
    match dget bwd bone_name with
    | none => none
    | some mdict =>
      match dget mdict mesh_name with
      | none => none
      | some weights =>
        if weight ≠ 0 then
          let weights1 :=
            match dget weights weight_str with
            | none => dset weights weight_str [v_index]
            | some l => dset weights weight_str (l ++ [v_index])
          some (dset bwd bone_name (dset mdict mesh_name weights1))
        else
          some bwd

/-- Source _meshes_to_weight_dict: allocate an entry for every bone name
and below it every mesh name, then walk every mesh's weight dict and feed
each triple to processTriple. The lookup bpy.data.objects of a mesh name
is modeled as a search of the scene's child list (Blender object names
are unique). The quantizer fmt stands for the configured vertex-weight
precision format string. -/
def meshes_to_weight_dict (human : HumanObj) (fmt : ℚ → String) : Option BWDict :=
  let mesh_names := (human.children.filter (fun c => decide (c.otype = "MESH"))).map MeshObj.name
  let bwd0 : BWDict := (armBoneNames human.data).foldl (fun d bn => dset d bn []) []
  let bwd1 : BWDict := (armBoneNames human.data).foldl (fun d bn =>
    mesh_names.foldl (fun d mn => dset d bn (dset ((dget d bn).getD []) mn [])) d) bwd0
  mesh_names.foldlM (fun bwd mesh_name =>
    match human.children.find? (fun c => decide (c.name = mesh_name)) with
    | none => none
    | some mesh =>
      let gw := mesh_to_weight_dict mesh
      gw.2.foldlM (fun bwd p =>
        p.2.foldlM (fun bwd q => processTriple fmt gw.1 mesh_name bwd p.1 q.1 q.2) bwd) bwd) bwd1

/-! ## Reference functions used to state the weight-index properties -/

/-- The in-range (group, weight) pairs of a group list, in order. -/
def inRangeGroups (tot : Nat) (gs : List VertWeight) : VGDict :=
  (gs.filter (fun g => decide (g.group < tot))).map (fun g => (g.group, g.weight))

/-- The weight dict _mesh_to_weight_dict builds: one entry per vertex
having at least one in-range group, in vertex order. -/
def vdictPartial (tot : Nat) (vs : List MVertex) : VDict :=
  vs.flatMap (fun v =>
    if inRangeGroups tot v.groups = [] then [] else [(v.index, inRangeGroups tot v.groups)])

def vdictOf (m : MeshObj) : VDict :=
  vdictPartial m.vertex_groups.length m.vertices

/-- All triples (vertex index, group index, weight) a mesh feeds into the
index, in iteration order. -/
def meshTriples (m : MeshObj) : List (Nat × Nat × ℚ) :=
  m.vertices.flatMap (fun v =>
    (v.groups.filter (fun g => decide (g.group < m.vertex_groups.length))).map
      (fun g => (v.index, g.group, g.weight)))

/-- The triples stored in a weight dict, in iteration order. -/
def wdTriples (wd : VDict) : List (Nat × Nat × ℚ) :=
  wd.flatMap (fun p => p.2.map (fun q => (p.1, q.1, q.2)))

/-- The surviving (quantized string, vertex index) pairs of a mesh for a
bone name: group resolving to that bone, nonzero weight. -/
def survivingPairs (fmt : ℚ → String) (m : MeshObj) (b : String) : List (String × Nat) :=
  ((meshTriples m).filter (fun t => decide (m.vertex_groups[t.2.1]? = some b ∧ t.2.2 ≠ 0))).map
    (fun t => (fmt t.2.2, t.1))

/-- The bucket table obtained by appending pairs in order. -/
def buildBuckets (ps : List (String × Nat)) : WDict :=
  ps.foldl (fun ws p => addTriple ws p.1 p.2) []

/-- The bucket table a (bone, mesh) pair ends up with. -/
def bucketsFor (fmt : ℚ → String) (m : MeshObj) (b : String) : WDict :=
  buildBuckets (survivingPairs fmt m b)

/-- Concatenation of all buckets of a table, in bucket order. -/
def joinVals : WDict → List Nat
  | [] => []
  | p :: ws => p.2 ++ joinVals ws

/-- Whether a vertex has an in-range nonzero weight for the bone name. -/
def vertexMatches (gn : List String) (b : String) (v : MVertex) : Bool :=
  v.groups.any (fun g => decide (gn[g.group]? = some b ∧ g.weight ≠ 0))

/-- Vertices of a mesh with nonzero weight for the bone name, in order. -/
def nonzeroVerts (gn : List String) (b : String) (vs : List MVertex) : List Nat :=
  (vs.filter (vertexMatches gn b)).map MVertex.index

/-- A list of keys paired with the value of a function at each key. -/
def tabulate {α β : Type} (ks : List α) (F : α → β) : List (α × β) :=
  ks.map (fun k => (k, F k))

/-- The child mesh objects of the scene root. -/
def meshesOf (h : HumanObj) : List MeshObj :=
  h.children.filter (fun c => decide (c.otype = "MESH"))

/-- The child mesh names of the scene root. -/
def meshNamesOf (h : HumanObj) : List String :=
  (meshesOf h).map MeshObj.name

/-- Pointwise update of a two-level table at one (bone, mesh) cell. -/
def upd2 (M : String → String → WDict) (b mn : String) (ws : WDict) :
    String → String → WDict :=
  fun x y => if x = b then (if y = mn then ws else M x y) else M x y

/-- The nested dict holding table M at every (bone, mesh-name) cell. -/
def TabState (names mesh_names : List String) (M : String → String → WDict) : BWDict :=
  tabulate names (fun b => tabulate mesh_names (M b))

/-- The effect of one triple of mesh mn on the two-level table. -/
def stepTriple (fmt : ℚ → String) (group_names : List String) (mn : String)
    (M : String → String → WDict) (t : Nat × Nat × ℚ) : String → String → WDict :=
  (group_names[t.2.1]?).elim M
    (fun b => if t.2.2 ≠ 0 then upd2 M b mn (addTriple (M b mn) (fmt t.2.2) t.1) else M)

/-- The effect of a triple list of mesh mn on the two-level table. -/
def accTriples (fmt : ℚ → String) (group_names : List String) (mn : String)
    (M : String → String → WDict) (ts : List (Nat × Nat × ℚ)) : String → String → WDict :=
  ts.foldl (stepTriple fmt group_names mn) M

/-- The two-level table after a list of meshes has been processed. -/
def Mof (fmt : ℚ → String) (processed : List MeshObj) (b mn : String) : WDict :=
  (processed.find? (fun m => decide (m.name = mn))).elim [] (fun m => bucketsFor fmt m b)

/-- A vertex with a given index and (group, weight) pairs, at the origin. -/
def mkVert (i : Nat) (gs : List (Nat × ℚ)) : MVertex :=
  { index := i, co := ⟨0, 0, 0⟩, normal := ⟨0, 0, 0⟩,
    groups := gs.map (fun p => { group := p.1, weight := p.2 }) }

/-- A small concrete scene: an armature with a root bone and one child
bone, and one mesh with two vertex groups, two vertices sharing the same
quantized weight for the root bone, one out-of-range group index and
one exactly-zero weight. -/
def sampleScene : HumanObj :=
  { children := [
      { name := "Body", otype := "MESH",
        vertex_groups := ["Bone", "Tail"],
        vertices := [
          mkVert 0 [(0, mkRat 1 2), (1, mkRat 1 2)],
          mkVert 1 [(0, mkRat 1 2)],
          mkVert 2 [(2, 1)],
          mkVert 3 [(1, 0)]],
        materials := [], active_material := none,
        polygons := [], loops := [], bmverts := [] }],
    data := { bones := [BoneTree.node "Bone" ⟨0, 0, 0⟩ [BoneTree.node "Tail" ⟨0, 0, 1⟩ []]] } }

/-! ## Texture, material and geometry writers (source lines 138-232, 294-478)

Each writer returns the structured record it would print; a Python
exception aborting the export is modeled as Except.error carrying the
exception name. The literal %.4f, %.5f and %.8f format strings of the
source are modeled by fmtFixed at the same precision. -/

/-- Source _get_image_format: sRGB maps to RGB (plus A for use_alpha).
Any other color space reaches the diagnostic print, whose format
arguments read the undefined bare name colorspace_settings, so the call
raises NameError instead of returning the empty string. -/
def get_image_format (image : ImageData) : Except String String :=
  if image.colorspace_name = "sRGB" then
    let retVal := "RGB"
    .ok (if image.use_alpha then retVal ++ "A" else retVal)
  else
    .error "NameError"

/-- Source _get_texture_wrap_u: repeat only for REPEAT extension with
repeat_x 1; otherwise the function prints and falls through, returning
Python None. -/
def get_texture_wrap_u (t : TextureData) : Option String :=
  if t.extension = "REPEAT" ∧ t.repeat_x = 1 then some "repeat" else none

/-- Source _get_texture_wrap_v. -/
def get_texture_wrap_v (t : TextureData) : Option String :=
  if t.extension = "REPEAT" ∧ t.repeat_y = 1 then some "repeat" else none

/-- Source _get_texture_type. -/
def get_texture_type (texture_coords mapping : String) : String :=
  if texture_coords = "UV" ∧ mapping = "FLAT" then "2d" else "undefined"

/-- Rendering of an optional string through the %s format, as the wrapu
and wrapv fields are written: Python None renders as the string None. -/
def pyStrOpt : Option String → String
  | none => "None"
  | some s => s

structure TextureRecord where
  texname : String
  path : String
  format : String
  wrapu : String
  wrapv : String
  ttype : String

/-- Source _write_texture: a texture without an image writes nothing;
otherwise the image is relocated (updating the copy registry) and the
record is emitted; an unrecognized color space aborts via
_get_image_format. -/
def write_texture (w : EggWorker) (texture : TextureData) (texture_coords mapping : String) :
    Except String (Option TextureRecord × EggWorker) :=
  match texture.image with
  | none => .ok (none, w)
  | some image =>
    let cr := copy_texture_to_new_location w image
    match get_image_format image with
    | .error e => .error e
    | .ok fmtStr =>
      .ok (some {
        texname := good_texture_name image.filepath
        path := cr.path
        format := fmtStr
        wrapu := pyStrOpt (get_texture_wrap_u texture)
        wrapv := pyStrOpt (get_texture_wrap_v texture)
        ttype := get_texture_type texture_coords mapping }, cr.worker)

/-- Python getattr(image, source, default empty) of an optional image. -/
def imageSource : Option ImageData → String
  | none => ""
  | some img => img.source

/-- The imageTextures comprehension of _write_textures: non-empty slots
holding an IMAGE texture whose image source is FILE. -/
def imageTexturesOf (mat : MaterialData) : List (TextureData × String × String) :=
  mat.texture_slots.filterMap (fun slot =>
    match slot with
    | none => none
    | some ts =>
      if ts.texture.ttype = "IMAGE" ∧ imageSource ts.texture.image = "FILE" then
        some (ts.texture, ts.texture_coords, ts.mapping)
      else none)

/-- Source _write_textures: walk every material of every mesh and write
each image texture whose file path is not yet in the copy registry. -/
def write_textures (w : EggWorker) (rmeshes : List MeshObj) :
    Except String (List TextureRecord × EggWorker) :=
  rmeshes.foldlM (fun acc rmesh =>
    rmesh.materials.foldlM (fun acc mat? =>
      match mat? with
      | none => Except.ok acc
      | some mat =>
        (imageTexturesOf mat).foldlM (fun acc tcm =>
          match tcm.1.image with
          | none => Except.error "AttributeError"
          | some img =>
            if (dget acc.2.copied_files img.filepath).isSome then Except.ok acc
            else
              match write_texture acc.2 tcm.1 tcm.2.1 tcm.2.2 with
              | .error e => Except.error e
              | .ok (none, w2) => Except.ok (acc.1, w2)
              | .ok (some r, w2) => Except.ok (acc.1 ++ [r], w2)) acc) acc)
    (([] : List TextureRecord), w)

structure MaterialRecord where
  material_name : String
  diff : String × String × String
  spec : String × String × String
  speca : String
  amb : String × String × String
  emitc : String × String × String
  shininess : String

/-- One record of _write_materials: the active material of the mesh,
its name sanitized, every scalar at four decimal places (ambient and
emit are written three times from the single scalar). A mesh without an
active material raises AttributeError at mat.name. -/
def write_material (m : MeshObj) : Except String MaterialRecord :=
  match m.active_material with
  | none => .error "AttributeError"
  | some mat =>
    .ok { material_name := good_material_name mat.name
          diff := (fmtFixed 4 mat.diffuse_color.r, fmtFixed 4 mat.diffuse_color.g,
            fmtFixed 4 mat.diffuse_color.b)
          spec := (fmtFixed 4 mat.specular_color.r, fmtFixed 4 mat.specular_color.g,
            fmtFixed 4 mat.specular_color.b)
          speca := fmtFixed 4 mat.specular_alpha
          amb := (fmtFixed 4 mat.ambient, fmtFixed 4 mat.ambient, fmtFixed 4 mat.ambient)
          emitc := (fmtFixed 4 mat.emit, fmtFixed 4 mat.emit, fmtFixed 4 mat.emit)
          shininess := fmtFixed 4 mat.specular_hardness }

/-- Source _write_materials: one record per mesh of the list, in order,
with no deduplication of shared materials. -/
def write_materials : List MeshObj → Except String (List MaterialRecord)
  | [] => .ok []
  | m :: ms =>
    match write_material m with
    | .error e => .error e
    | .ok r =>
      match write_materials ms with
      | .error e => .error e
      | .ok rs => .ok (r :: rs)

/-- Source _uv_from_vert_first: the uv of the first incident loop, None
when the vertex has no incident loops. -/
def uv_from_vert_first (v : BMVert) : Option (ℚ × ℚ) :=
  match v.link_loops with
  | [] => none
  | l :: _ => some l.uv

/-- The texture_names comprehension shared by _uv_from_vert_set and
_write_polygons: names of IMAGE textures of the slots; the filepath read
raises AttributeError when such a texture has no image. -/
def textureNamesOf (mat : MaterialData) : Except String (List String) :=
  mat.texture_slots.foldlM (fun names slot =>
    match slot with
    | none => Except.ok names
    | some ts =>
      if ts.texture.ttype = "IMAGE" then
        match ts.texture.image with
        | none => Except.error "AttributeError"
        | some img => Except.ok (names ++ [good_texture_name img.filepath])
      else Except.ok names) ([] : List String)

/-- Source _uv_from_vert_set: dedup the uv values of the incident loops
in encounter order, then read the material of the last loop's face; with
no incident loops the loop variable is unbound and the material read
raises NameError. -/
def uv_from_vert_set (bvertex : BMVert) (mesh : MeshObj) :
    Except String (List (String × (ℚ × ℚ))) :=
  let uv_set := bvertex.link_loops.foldl
    (fun acc l => if l.uv ∈ acc then acc else acc ++ [l.uv]) []
  match bvertex.link_loops.getLast? with
  | none => .error "NameError"
  | some lp =>
    match mesh.materials[lp.face_material_index]? with
    | none => .error "IndexError"
    | some none => .error "AttributeError"
    | some (some mat) =>
      match textureNamesOf mat with
      | .error e => .error e
      | .ok texture_names =>
        .ok (match texture_names, uv_set with
          | [t], uvs => uvs.map (fun uv => (t, uv))
          | ts, [uv] => ts.map (fun t => (t, uv))
          | _, _ => [])

structure VertexRecord where
  vindex : Nat
  co : String × String × String
  uv : String × String
  normal : String × String × String
  weight_comments : List (String × String)

/-- Source _write_vertex: position, first-loop UV and normal at four
decimal places plus one comment line per nonzero weight at eight decimal
places. The unused uv_set computation still runs and can raise; a None
uv_first is subscripted and raises TypeError. -/
def write_vertex (mesh : MeshObj) (group_names : List String) (vertex : MVertex)
    (bvertex : BMVert) (weights : VGDict) : Except String VertexRecord :=
  let uv_first := uv_from_vert_first bvertex
  match uv_from_vert_set bvertex mesh with
  | .error e => .error e
  | .ok _ =>
    match uv_first with
    | none => .error "TypeError"
    | some uv =>
      match weights.foldlM (fun acc q =>
          match group_names[q.1]? with
          | none => Except.error "IndexError"
          | some gname =>
            if q.2 ≠ 0 then
              Except.ok (acc ++ [(good_bone_name gname, fmtFixed 8 q.2)])
            else Except.ok acc) ([] : List (String × String)) with
      | .error e => .error e
      | .ok wcs =>
        .ok { vindex := vertex.index
              co := (fmtFixed 4 vertex.co.x, fmtFixed 4 vertex.co.y,
                fmtFixed 4 vertex.co.z)
              uv := (fmtFixed 4 uv.1, fmtFixed 4 uv.2)
              normal := (fmtFixed 4 vertex.normal.x, fmtFixed 4 vertex.normal.y,
                fmtFixed 4 vertex.normal.z)
              weight_comments := wcs }

/-- Source _write_vertexPool: the pool name and one record per vertex in
list order; each vertex looks up its bmesh vertex by index and its
weight dict entry, and a vertex absent from the weight dict (one with no
in-range group) raises KeyError. -/
def write_vertexPool (mesh_obj : MeshObj) : Except String (String × List VertexRecord) :=
  let mesh_name := good_mesh_name mesh_obj.name
  let gw := mesh_to_weight_dict mesh_obj
  match mesh_obj.vertices.foldlM (fun acc vertex =>
      match mesh_obj.bmverts[vertex.index]? with
      | none => Except.error "IndexError"
      | some bv =>
        match dget gw.2 vertex.index with
        | none => Except.error "KeyError"
        | some weights =>
          match write_vertex mesh_obj gw.1 vertex bv weights with
          | .error e => Except.error e
          | .ok r => Except.ok (acc ++ [r])) ([] : List VertexRecord) with
  | .error e => .error e
  | .ok rs => .ok (mesh_name, rs)

structure PolygonRecord where
  pindex : Nat
  trefs : List String
  mref : String
  vrefs : List Nat

/-- Source _write_polygons: per polygon the texture references of its
material, the material reference and the vertex indices of its loops. -/
def write_polygons (mesh : MeshObj) : Except String (List PolygonRecord) :=
  mesh.polygons.foldlM (fun acc poly =>
    match mesh.materials[poly.material_index]? with
    | none => Except.error "IndexError"
    | some none => Except.error "AttributeError"
    | some (some mat) =>
      match textureNamesOf mat with
      | .error e => Except.error e
      | .ok texture_names =>
        match poly.loop_indices.foldlM (fun vs li =>
            match mesh.loops[li]? with
            | none => Except.error "IndexError"
            | some vi => Except.ok (vs ++ [vi])) ([] : List Nat) with
        | .error e => Except.error e
        | .ok vrefs =>
          Except.ok (acc ++ [PolygonRecord.mk poly.index texture_names
            (good_material_name mat.name) vrefs])) ([] : List PolygonRecord)

structure MeshGroupRecord where
  gname : String
  pool : String × List VertexRecord
  polys : List PolygonRecord

/-- Source _write_mesh_object: the mesh group holding the vertex pool
and the polygons. -/
def write_mesh_object (mesh_obj : MeshObj) : Except String MeshGroupRecord :=
  match write_vertexPool mesh_obj with
  | .error e => .error e
  | .ok pool =>
    match write_polygons mesh_obj with
    | .error e => .error e
    | .ok polys =>
      .ok { gname := good_mesh_name mesh_obj.name, pool := pool, polys := polys }

/-- Code-point lexicographic comparison of char lists, the order Python
sorted uses on strings. -/
def charListLe : List Char → List Char → Bool
  | [], _ => true
  | _ :: _, [] => false
  | a :: as, b :: bs =>
    if a.toNat < b.toNat then true
    else if b.toNat < a.toNat then false
    else charListLe as bs

def strLe (a b : String) : Bool := charListLe a.data b.data

def insertLe {α : Type} (le : α → α → Bool) (a : α) : List α → List α
  | [] => [a]
  | b :: bs => if le a b then a :: b :: bs else b :: insertLe le a bs

/-- Stable ascending insertion sort, modeling Python sorted. -/
def sortByLe {α : Type} (le : α → α → Bool) : List α → List α
  | [] => []
  | a :: as => insertLe le a (sortByLe le as)

structure VertexRefRecord where
  indices : List Nat
  membership : String
  mesh_ref : String

/-- Source _write_bone_vertex_ref: one VertexRef block per (sorted mesh
name, sorted weight string) pair, with sorted vertex indices and the
weight string as membership. -/
def write_bone_vertex_ref (meshes_weights : MDict) : List VertexRefRecord :=
  (sortByLe strLe (dkeys meshes_weights)).flatMap (fun mesh_name =>
    let weights_dict := (dget meshes_weights mesh_name).getD []
    (sortByLe strLe (dkeys weights_dict)).map (fun weight =>
      { indices := sortByLe (fun a b => decide (a ≤ b)) ((dget weights_dict weight).getD [])
        membership := weight
        mesh_ref := good_mesh_name mesh_name }))

inductive JointBlock where
  | joint (name : String) (translate : String × String × String)
      (children : List JointBlock) (vrefs : List VertexRefRecord)

mutual
/-- Source _write_bone: the joint with its translation, the child joints
and the vertex references of the bone; a bone name missing from the
weight index raises KeyError. -/
def write_bone (bones_weights : BWDict) (parentHead : Option Vec3) :
    BoneTree → Except String JointBlock
  | .node nm head children =>
    match write_bone_children bones_weights head children with
    | .error e => .error e
    | .ok cs =>
      match dget bones_weights nm with
      | none => .error "KeyError"
      | some mw =>
        .ok (JointBlock.joint (good_bone_name nm) (write_bone_translation parentHead head)
          cs (write_bone_vertex_ref mw))
def write_bone_children (bones_weights : BWDict) (head : Vec3) :
    List BoneTree → Except String (List JointBlock)
  | [] => .ok []
  | t :: ts =>
    match write_bone bones_weights (some head) t with
    | .error e => .error e
    | .ok j =>
      match write_bone_children bones_weights head ts with
      | .error e => .error e
      | .ok js => .ok (j :: js)
end

/-- Source _write_armature: build the weight index, then write only the
first root bone (roots[0]); no root raises IndexError. -/
def write_armature (human : HumanObj) (fmt : ℚ → String) : Except String JointBlock :=
  match meshes_to_weight_dict human fmt with
  | none => .error "KeyError"
  | some bwd =>
    match human.data.bones with
    | [] => .error "IndexError"
    | root :: _ => write_bone bwd none root

structure GroupsBlock where
  gname : String
  dart : Bool
  mesh_groups : List MeshGroupRecord
  armature : Option JointBlock

/-- Source _write_groups: the outer group with a Dart flag when bones
exist, the mesh groups under CharacterRoot, then the armature when bones
exist. -/
def write_groups (human : HumanObj) (name : String) (fmt : ℚ → String) :
    Except String GroupsBlock :=
  match (meshesOf human).foldlM (fun acc m =>
      match write_mesh_object m with
      | .error e => Except.error e
      | .ok g => Except.ok (acc ++ [g])) ([] : List MeshGroupRecord) with
  | .error e => .error e
  | .ok mgs =>
    if 0 < human.data.bones.length then
      match write_armature human fmt with
      | .error e => .error e
      | .ok jb => .ok { gname := name, dart := true, mesh_groups := mgs, armature := some jb }
    else
      .ok { gname := name, dart := false, mesh_groups := mgs, armature := none }

structure EggDocument where
  comment : String × String
  textures : List TextureRecord
  materials : List MaterialRecord
  groups : GroupsBlock

/-- Source produce_egg: the comment (blend file name and egg file name),
then the textures, then the materials, then the groups with the
geometry, in write order. The fmt parameter is the configured
vertex-weight quantizer. -/
def produce_egg (w : EggWorker) (blend_name : String) (fmt : ℚ → String) :
    Except String EggDocument :=
  let meshes := meshesOf w.human
  match write_textures w meshes with
  | .error e => .error e
  | .ok tw =>
    match write_materials meshes with
    | .error e => .error e
    | .ok mrecs =>
      match write_groups w.human w.filename fmt with
      | .error e => .error e
      | .ok gb =>
        .ok { comment := (blend_name, w.filename ++ ".egg")
              textures := tw.1
              materials := mrecs
              groups := gb }

inductive EggBlock where
  | commentB (c : String × String)
  | textureB (t : TextureRecord)
  | materialB (m : MaterialRecord)
  | groupsB (g : GroupsBlock)

/-- The emission order of the document sections: comment, textures,
materials, then the groups block holding all geometry. -/
def docBlocks (d : EggDocument) : List EggBlock :=
  EggBlock.commentB d.comment ::
    (d.textures.map EggBlock.textureB ++ d.materials.map EggBlock.materialB
      ++ [EggBlock.groupsB d.groups])

/-- A plain material with no texture slots. -/
def sampleMat : MaterialData :=
  { name := "Skin"
    diffuse_color := ⟨mkRat 8 10, mkRat 7 10, mkRat 6 10⟩
    specular_color := ⟨mkRat 1 2, mkRat 1 2, mkRat 1 2⟩
    specular_alpha := mkRat 1 1
    ambient := mkRat 1 1
    emit := mkRat 0 1
    specular_hardness := mkRat 50 1
    texture_slots := [] }

/-- A mesh with no geometry whose active material is sampleMat. -/
def plainMesh (nm : String) : MeshObj :=
  { name := nm, otype := "MESH", vertex_groups := [], vertices := [],
    materials := [some sampleMat], active_material := some sampleMat,
    polygons := [], loops := [], bmverts := [] }

/-- A mesh with one vertex group and one vertex that belongs to no
group; its bmesh vertex has an incident loop, so only the weight lookup
can fail. -/
def c10mesh : MeshObj :=
  { name := "Solo", otype := "MESH", vertex_groups := ["Bone"],
    vertices := [mkVert 0 []],
    materials := [some sampleMat], active_material := some sampleMat,
    polygons := [], loops := [],
    bmverts := [{ link_loops := [{ uv := (mkRat 0 1, mkRat 0 1), face_material_index := 0 }] }] }

/-- A scene of two meshes sharing the same active material. -/
def c8scene : HumanObj :=
  { children := [plainMesh "Body", plainMesh "Head"], data := { bones := [] } }

/-- A worker exporting the two-mesh scene. -/
def c8worker : EggWorker :=
  ExportEggWorker.init c8scene 4 "/scene/out.egg" true

/-! ## Lemmas about the string helpers -/

theorem strReplace_data (s : String) (a b : Char) :
    (strReplace s a b).data = s.data.map (fun c => if c = a then b else c) := rfl

theorem mem_strReplace_ne (s : String) (a b c : Char) (hba : b ≠ a)
    (hc : c ∈ (strReplace s a b).data) : c ≠ a := by
  rw [strReplace_data] at hc
  obtain ⟨x, _, hx⟩ := List.mem_map.mp hc
  by_cases h : x = a
  · simp [h] at hx
    intro hca
    exact hba (hx.symm ▸ hca)
  · simp [h] at hx
    intro hca
    exact h (hx ▸ hca)

theorem map_replace_id (a b : Char) :
    ∀ (l : List Char), (∀ c ∈ l, c ≠ a) → l.map (fun c => if c = a then b else c) = l
  | [], _ => rfl
  | x :: xs, h => by
    have hx : x ≠ a := h x (by simp)
    simp only [List.map_cons, if_neg hx]
    rw [map_replace_id a b xs (fun c hc => h c (by simp [hc]))]

theorem strReplace_id_of_not_mem (s : String) (a b : Char)
    (h : ∀ c ∈ s.data, c ≠ a) : strReplace s a b = s := by
  cases s with
  | mk data =>
    show String.mk (data.map _) = String.mk data
    rw [map_replace_id a b data h]

theorem strReplace_length (s : String) (a b : Char) :
    (strReplace s a b).data.length = s.data.length := by
  rw [strReplace_data, List.length_map]

theorem splitChar_ne_nil (l : List Char) (c : Char) : splitChar l c ≠ [] := by
  induction l with
  | nil => simp [splitChar]
  | cons x xs ih =>
    simp only [splitChar]
    by_cases h : x = c
    · simp [h]
    · simp only [if_neg h]
      cases hr : splitChar xs c with
      | nil => exact absurd hr ih
      | cons y ys => simp

theorem getLastD_of_ne_nil {α : Type} (l : List α) (d1 d2 : α) (h : l ≠ []) :
    l.getLastD d1 = l.getLastD d2 := by
  rw [List.getLastD_eq_getLast?, List.getLastD_eq_getLast?]
  cases hl : l.getLast? with
  | none => exact absurd (List.getLast?_eq_none_iff.mp hl) h
  | some y => rfl

theorem afterLastSep_of_not_mem (c : Char) (l : List Char) (h : c ∉ l) :
    afterLastSep c l = l := by
  induction l with
  | nil => rfl
  | cons x xs ih =>
    have hx : x ≠ c := fun hxc => h (by simp [hxc])
    have hxs : c ∉ xs := fun hc => h (by simp [hc])
    simp [afterLastSep, hxs, hx, ih hxs]

/-- Splitting a list that does not contain the separator gives it back whole. -/
theorem splitChar_of_not_mem (l : List Char) (c : Char) (h : c ∉ l) :
    splitChar l c = [l] := by
  induction l with
  | nil => rfl
  | cons x xs ih =>
    have hx : x ≠ c := fun hxc => h (by simp [hxc])
    have hxs : c ∉ xs := fun hc => h (by simp [hc])
    simp only [splitChar, if_neg hx, ih hxs]

theorem two_le_length_splitChar (l : List Char) (c : Char) (h : c ∈ l) :
    2 ≤ (splitChar l c).length := by
  induction l with
  | nil => simp at h
  | cons x xs ih =>
    simp only [splitChar]
    by_cases hx : x = c
    · simp only [if_pos hx, List.length_cons]
      have h1 : 1 ≤ (splitChar xs c).length := by
        cases hr : splitChar xs c with
        | nil => exact absurd hr (splitChar_ne_nil xs c)
        | cons y ys => simp
      omega
    · have hxs : c ∈ xs := by
        rcases List.mem_cons.mp h with h1 | h1
        · exact absurd h1.symm hx
        · exact h1
      simp only [if_neg hx]
      cases hr : splitChar xs c with
      | nil => exact absurd hr (splitChar_ne_nil xs c)
      | cons y ys =>
        have := ih hxs
        rw [hr] at this
        simpa using this

/-- The last fragment of a Python split is the suffix after the last
occurrence of the separator. -/
theorem lastSplit_eq_afterLastSep (l : List Char) (c : Char) :
    (splitChar l c).getLastD [] = afterLastSep c l := by
  induction l with
  | nil => rfl
  | cons x xs ih =>
    simp only [splitChar, afterLastSep]
    by_cases hx : x = c
    · simp only [if_pos hx]
      rw [List.getLastD_cons, getLastD_of_ne_nil _ _ [] (splitChar_ne_nil xs c), ih]
      by_cases hm : c ∈ xs
      · simp [hm]
      · simp [hm, afterLastSep_of_not_mem c xs hm]
    · simp only [if_neg hx]
      cases hr : splitChar xs c with
      | nil => exact absurd hr (splitChar_ne_nil xs c)
      | cons y ys =>
        cases ys with
        | nil =>
          have hm : c ∉ xs := by
            intro hmem
            have := two_le_length_splitChar xs c hmem
            rw [hr] at this
            simp at this
          have hy : y = xs := by
            have := splitChar_of_not_mem xs c hm
            rw [hr] at this
            simpa using this
          simp [List.getLastD_cons, hm, hx, hy]

        | cons z zs =>
          have hm : c ∈ xs := by
            by_contra hmem
            have := splitChar_of_not_mem xs c hmem
            rw [hr] at this
            simp at this
          show ((x :: y) :: z :: zs).getLastD [] = _
          rw [List.getLastD_cons, getLastD_of_ne_nil (z :: zs) (x :: y) y (by simp)]
          rw [if_pos hm, ← ih, hr, List.getLastD_cons]
          exact (List.getLastD_cons y z zs).symm

theorem not_mem_afterLastSep (c : Char) (l : List Char) : c ∉ afterLastSep c l := by
  induction l with
  | nil => simp [afterLastSep]
  | cons x xs ih =>
    simp only [afterLastSep]
    by_cases hm : c ∈ xs
    · simpa [hm] using ih
    · by_cases hx : x = c
      · simp [hm, hx]
      · simp only [if_neg hm, if_neg hx]
        intro hmem
        rcases List.mem_cons.mp hmem with h1 | h1
        · exact hx h1.symm
        · exact hm h1

theorem afterLastSep_ne_nil (c : Char) (l : List Char) (hl : l ≠ [])
    (hlast : l.getLast? ≠ some c) : afterLastSep c l ≠ [] := by
  induction l with
  | nil => exact absurd rfl hl
  | cons x xs ih =>
    simp only [afterLastSep]
    by_cases hm : c ∈ xs
    · have hxs : xs ≠ [] := by
        intro h
        rw [h] at hm
        simp at hm
      simp only [if_pos hm]
      apply ih hxs
      intro h
      apply hlast
      cases xs with
      | nil => exact absurd rfl hxs
      | cons z zs => rw [List.getLast?_cons_cons]; exact h
    · by_cases hx : x = c
      · simp only [if_neg hm, if_pos hx]
        cases xs with
        | nil =>
          exfalso
          apply hlast
          rw [hx]
          simp
        | cons z zs => simp
      · simp [hm, hx]

theorem mem_afterLastSep_sub (c : Char) (l : List Char) :
    ∀ x ∈ afterLastSep c l, x ∈ l := by
  induction l with
  | nil => simp [afterLastSep]
  | cons y ys ih =>
    simp only [afterLastSep]
    by_cases hm : c ∈ ys
    · simp only [if_pos hm]
      intro x hx
      exact List.mem_cons_of_mem y (ih x hx)
    · by_cases hy : y = c
      · simp only [if_neg hm, if_pos hy]
        intro x hx
        exact List.mem_cons_of_mem y hx
      · simp [hm, hy]

theorem mem_strReplace_cases (s : String) (a b c : Char)
    (hc : c ∈ (strReplace s a b).data) : c = b ∨ (c ∈ s.data ∧ c ≠ a) := by
  rw [strReplace_data] at hc
  obtain ⟨x, hxs, hx⟩ := List.mem_map.mp hc
  by_cases h : x = a
  · rw [if_pos h] at hx
    exact Or.inl hx.symm
  · rw [if_neg h] at hx
    exact Or.inr ⟨hx ▸ hxs, hx ▸ h⟩

theorem string_eq_empty_iff (s : String) : s = "" ↔ s.data = [] := by
  constructor
  · intro h
    rw [h]
  · intro h
    cases s with
    | mk d =>
      have hd : d = [] := h
      rw [hd]

theorem string_ne_empty_iff (s : String) : s ≠ "" ↔ s.data ≠ [] :=
  not_congr (string_eq_empty_iff s)

theorem getLast?_strReplace (s : String) (a b : Char) :
    (strReplace s a b).data.getLast? = s.data.getLast?.map (fun c => if c = a then b else c) := by
  rw [strReplace_data]
  exact List.getLast?_map _ s.data

/-! ## Claim C6 -/

/-- C6 counterexample: the file-name sanitizer keeps interior dots from a
multi-dot base name (splitext removes only the final extension), so its
output can contain a dot and it is not idempotent. This refutes the claim
that every sanitizer is idempotent and produces output free of dots. -/
theorem c6_counterexample :
    ('.' ∈ (good_file_name "a.b.c").data) ∧
      good_file_name (good_file_name "a.b.c") ≠ good_file_name "a.b.c" := by
  decide

theorem good_bone_name_no_dot (s : String) : '.' ∉ (good_bone_name s).data := by
  intro h
  rcases mem_strReplace_cases _ '-' '_' '.' h with h1 | h1
  · exact absurd h1 (by decide)
  · rcases mem_strReplace_cases _ '.' '_' '.' h1.1 with h2 | h2
    · exact absurd h2 (by decide)
    · exact h2.2 rfl

theorem good_bone_name_no_dash (s : String) : '-' ∉ (good_bone_name s).data := by
  intro h
  rcases mem_strReplace_cases _ '-' '_' '-' h with h1 | h1
  · exact absurd h1 (by decide)
  · exact h1.2 rfl

theorem good_bone_name_idem (s : String) :
    good_bone_name (good_bone_name s) = good_bone_name s := by
  unfold good_bone_name
  rw [strReplace_id_of_not_mem (strReplace (strReplace s '.' '_') '-' '_') '.' '_'
    (fun c hc h => good_bone_name_no_dot s (h ▸ hc))]
  exact strReplace_id_of_not_mem _ '-' '_'
    (fun c hc h => good_bone_name_no_dash s (h ▸ hc))

theorem good_mesh_name_no_colon (s : String) : ':' ∉ (good_mesh_name s).data := by
  show ':' ∉ ((splitChar s.data ':').getLastD [])
  rw [lastSplit_eq_afterLastSep]
  exact not_mem_afterLastSep ':' s.data

theorem good_mesh_name_idem (s : String) :
    good_mesh_name (good_mesh_name s) = good_mesh_name s := by
  have h := good_mesh_name_no_colon s
  show String.mk ((splitChar (good_mesh_name s).data ':').getLastD []) = good_mesh_name s
  rw [splitChar_of_not_mem _ ':' h]
  cases hg : good_mesh_name s with
  | mk l => simp [List.getLastD_cons]

theorem good_texture_name_no_dot (s : String) : '.' ∉ (good_texture_name s).data := by
  intro h
  rcases mem_strReplace_cases _ '.' '_' '.' h with h1 | h1
  · exact absurd h1 (by decide)
  · exact h1.2 rfl

theorem good_texture_name_no_slash (s : String) : '/' ∉ (good_texture_name s).data := by
  intro h
  rcases mem_strReplace_cases _ '.' '_' '/' h with h1 | h1
  · exact absurd h1 (by decide)
  · apply not_mem_afterLastSep '/' s.data
    rw [← lastSplit_eq_afterLastSep]
    exact h1.1

theorem good_texture_name_idem (s : String) :
    good_texture_name (good_texture_name s) = good_texture_name s := by
  have hb : basename (good_texture_name s) = good_texture_name s := by
    show String.mk ((splitChar (good_texture_name s).data '/').getLastD []) = _
    rw [splitChar_of_not_mem _ '/' (good_texture_name_no_slash s)]
    cases hg : good_texture_name s with
    | mk l => simp [List.getLastD_cons]
  show strReplace (basename (good_texture_name s)) '.' '_' = good_texture_name s
  rw [hb]
  exact strReplace_id_of_not_mem _ '.' '_'
    (fun c hc h => good_texture_name_no_dot s (h ▸ hc))

theorem good_material_name_no_colon (s : String) :
    ':' ∉ (good_material_name s).data := by
  show ':' ∉ ((splitChar (strReplace s ' ' '_').data ':').getLastD [])
  rw [lastSplit_eq_afterLastSep]
  exact not_mem_afterLastSep ':' _

theorem good_material_name_no_space (s : String) :
    ' ' ∉ (good_material_name s).data := by
  intro h
  have h1 : ' ' ∈ (strReplace s ' ' '_').data := by
    apply mem_afterLastSep_sub ':' (strReplace s ' ' '_').data
    rw [← lastSplit_eq_afterLastSep]
    exact h
  rcases mem_strReplace_cases _ ' ' '_' ' ' h1 with h2 | h2
  · exact absurd h2 (by decide)
  · exact h2.2 rfl

theorem good_material_name_idem (s : String) :
    good_material_name (good_material_name s) = good_material_name s := by
  show String.mk ((splitChar (strReplace (good_material_name s) ' ' '_').data ':').getLastD []) =
    good_material_name s
  rw [strReplace_id_of_not_mem (good_material_name s) ' ' '_'
    (fun c hc h => good_material_name_no_space s (h ▸ hc))]
  rw [splitChar_of_not_mem _ ':' (good_material_name_no_colon s)]
  cases hg : good_material_name s with
  | mk l => simp [List.getLastD_cons]

theorem good_file_name_no_space (s : String) : ' ' ∉ (good_file_name s).data := by
  intro h
  rcases mem_strReplace_cases _ '-' '_' ' ' h with h1 | h1
  · exact absurd h1 (by decide)
  · rcases mem_strReplace_cases _ ' ' '_' ' ' h1.1 with h2 | h2
    · exact absurd h2 (by decide)
    · exact h2.2 rfl

theorem good_file_name_no_dash (s : String) : '-' ∉ (good_file_name s).data := by
  intro h
  rcases mem_strReplace_cases _ '-' '_' '-' h with h1 | h1
  · exact absurd h1 (by decide)
  · exact h1.2 rfl

/-- C6: amended. Of the five sanitizers, the bone, mesh, texture and
material sanitizers are idempotent, and each sanitizer removes exactly the
characters its own rule targets: bone names lose dots and dashes, mesh and
material names lose every colon-prefixed segment, material names also lose
spaces, texture names lose dots, and file names lose spaces and dashes.
The file sanitizer may keep dots from multi-dot base names and is not
idempotent on them (see the counterexample), so the universal claim is
restricted accordingly. -/
theorem c6_sanitizers_amended (s : String) :
    good_bone_name (good_bone_name s) = good_bone_name s ∧
    good_mesh_name (good_mesh_name s) = good_mesh_name s ∧
    good_texture_name (good_texture_name s) = good_texture_name s ∧
    good_material_name (good_material_name s) = good_material_name s ∧
    '.' ∉ (good_bone_name s).data ∧ '-' ∉ (good_bone_name s).data ∧
    ':' ∉ (good_mesh_name s).data ∧
    '.' ∉ (good_texture_name s).data ∧
    ' ' ∉ (good_material_name s).data ∧ ':' ∉ (good_material_name s).data ∧
    ' ' ∉ (good_file_name s).data ∧ '-' ∉ (good_file_name s).data :=
  ⟨good_bone_name_idem s, good_mesh_name_idem s, good_texture_name_idem s,
   good_material_name_idem s, good_bone_name_no_dot s, good_bone_name_no_dash s,
   good_mesh_name_no_colon s, good_texture_name_no_dot s,
   good_material_name_no_space s, good_material_name_no_colon s,
   good_file_name_no_space s, good_file_name_no_dash s⟩

/-! ## Claim C7 -/

/-- C7 counterexample: the mesh-name sanitizer maps the non-empty name
that ends in a colon to the empty string, refuting the claim that every
sanitizer maps non-empty input to non-empty output. -/
theorem c7_counterexample : ("x:" : String) ≠ "" ∧ good_mesh_name "x:" = "" := by
  decide

theorem take_ne_nil_of_pos {α : Type} (l : List α) (n : Nat) (hn : 1 ≤ n)
    (hl : l ≠ []) : l.take n ≠ [] := by
  cases l with
  | nil => exact absurd rfl hl
  | cons x xs =>
    cases n with
    | zero => omega
    | succ m => simp

theorem splitextStem_ne_nil (p : List Char) (hp : p ≠ []) : splitextStem p ≠ [] := by
  unfold splitextStem
  cases hd : rfindIdx p '.' with
  | none => exact hp
  | some d =>
    simp only
    by_cases hf : (match rfindIdx p '/' with | some i => i + 1 | none => 0) ≤ d
    · rw [if_pos hf]
      by_cases ha : (((p.drop (match rfindIdx p '/' with | some i => i + 1 | none => 0)).take
          (d - (match rfindIdx p '/' with | some i => i + 1 | none => 0))).any
            (fun x => x ≠ '.')) = true
      · rw [if_pos ha]
        have hne : ((p.drop (match rfindIdx p '/' with | some i => i + 1 | none => 0)).take
            (d - (match rfindIdx p '/' with | some i => i + 1 | none => 0))) ≠ [] := by
          intro h0
          rw [h0] at ha
          simp at ha
        have hd1 : 1 ≤ d := by
          rcases Nat.eq_zero_or_pos d with h0 | h0
          · exfalso
            apply hne
            apply List.take_eq_nil_iff.mpr
            left
            omega
          · exact h0
        exact take_ne_nil_of_pos p d hd1 hp
      · rw [if_neg ha]
        exact hp
    · rw [if_neg hf]
      exact hp

theorem basename_ne_empty (s : String) (hs : s ≠ "")
    (hlast : s.data.getLast? ≠ some '/') : basename s ≠ "" := by
  rw [string_ne_empty_iff] at hs ⊢
  show ((splitChar s.data '/').getLastD []) ≠ []
  rw [lastSplit_eq_afterLastSep]
  exact afterLastSep_ne_nil '/' s.data hs hlast

/-- C7: amended. The bone sanitizer always yields non-empty output on
non-empty input; the mesh and material sanitizers yield non-empty output
provided the input does not end with a colon (a trailing colon gives the
empty string, see the counterexample); the file and texture sanitizers
yield non-empty output provided the path does not end with a slash (a
trailing slash gives an empty basename). -/
theorem c7_nonempty_amended (s : String) (hs : s ≠ "") :
    good_bone_name s ≠ "" ∧
    (s.data.getLast? ≠ some ':' →
      good_mesh_name s ≠ "" ∧ good_material_name s ≠ "") ∧
    (s.data.getLast? ≠ some '/' →
      good_texture_name s ≠ "" ∧ good_file_name s ≠ "") := by
  refine ⟨?_, ?_, ?_⟩
  · rw [string_ne_empty_iff] at hs ⊢
    intro h
    apply hs
    have h1 := strReplace_length (strReplace s '.' '_') '-' '_'
    have h2 := strReplace_length s '.' '_'
    have : (good_bone_name s).data.length = s.data.length := by
      unfold good_bone_name
      rw [h1, h2]
    rw [h] at this
    simp at this
    exact List.eq_nil_of_length_eq_zero this.symm
  · intro hlast
    constructor
    · rw [string_ne_empty_iff] at hs ⊢
      show ((splitChar s.data ':').getLastD []) ≠ []
      rw [lastSplit_eq_afterLastSep]
      exact afterLastSep_ne_nil ':' s.data hs hlast
    · rw [string_ne_empty_iff] at hs ⊢
      show ((splitChar (strReplace s ' ' '_').data ':').getLastD []) ≠ []
      rw [lastSplit_eq_afterLastSep]
      apply afterLastSep_ne_nil ':' _
      · intro h
        apply hs
        have := strReplace_length s ' ' '_'
        rw [h] at this
        simp at this
        exact List.eq_nil_of_length_eq_zero this.symm
      · rw [getLast?_strReplace]
        intro h
        cases hl : s.data.getLast? with
        | none => rw [hl] at h; simp at h
        | some y =>
          rw [hl] at h
          have h2 : (if y = ' ' then '_' else y) = ':' := Option.some.inj h
          by_cases hy : y = ' '
          · rw [if_pos hy] at h2
            exact absurd h2 (by decide)
          · rw [if_neg hy] at h2
            apply hlast
            rw [hl, h2]
  · intro hlast
    have hb : basename s ≠ "" := basename_ne_empty s hs hlast
    constructor
    · rw [string_ne_empty_iff] at hb ⊢
      intro h
      apply hb
      have := strReplace_length (basename s) '.' '_'
      rw [show (good_texture_name s).data = (strReplace (basename s) '.' '_').data from rfl] at h
      rw [h] at this
      simp at this
      exact List.eq_nil_of_length_eq_zero this.symm
    · rw [string_ne_empty_iff] at hb ⊢
      intro h
      have hstem : splitextStem (basename s).data ≠ [] :=
        splitextStem_ne_nil (basename s).data hb
      apply hstem
      have h1 := strReplace_length (strReplace (String.mk (splitextStem (basename s).data)) ' ' '_') '-' '_'
      have h2 := strReplace_length (String.mk (splitextStem (basename s).data)) ' ' '_'
      have hlen : (good_file_name s).data.length = (splitextStem (basename s).data).length := by
        unfold good_file_name
        rw [h1, h2]
      rw [h] at hlen
      simp at hlen
      exact List.eq_nil_of_length_eq_zero hlen.symm

/-- C7 witness: the amended non-emptiness at a concrete name satisfying
the side conditions. -/
theorem c7_nonempty_amended_witness :
    good_bone_name "Scene:Body v1.2" ≠ "" ∧
    (good_mesh_name "Scene:Body v1.2" ≠ "" ∧ good_material_name "Scene:Body v1.2" ≠ "") ∧
    (good_texture_name "Scene:Body v1.2" ≠ "" ∧ good_file_name "Scene:Body v1.2" ≠ "") :=
  have h := c7_nonempty_amended "Scene:Body v1.2" (by decide)
  ⟨h.1, h.2.1 (by decide), h.2.2 (by decide)⟩

theorem digitChars_length (p m : Nat) : (digitChars p m).length = p := by
  induction p generalizing m with
  | zero => rfl
  | succ q ih => simp [digitChars, ih]

theorem digit_char_prop (r : Nat) (hr : r < 10) :
    (Char.ofNat (48 + r)).isDigit = true ∧ Char.ofNat (48 + r) ≠ '.' := by
  interval_cases r <;> exact ⟨by decide, by decide⟩

theorem digitChars_digits (p m : Nat) :
    ∀ c ∈ digitChars p m, c.isDigit = true ∧ c ≠ '.' := by
  induction p generalizing m with
  | zero => simp [digitChars]
  | succ q ih =>
    intro c hc
    simp only [digitChars] at hc
    rcases List.mem_append.mp hc with h | h
    · exact ih (m / 10) c h
    · rw [List.mem_singleton.mp h]
      exact digit_char_prop (m % 10) (Nat.mod_lt m (by omega))

theorem natDigitsAux_no_dot (fuel m : Nat) : '.' ∉ natDigitsAux fuel m := by
  induction fuel generalizing m with
  | zero => simp [natDigitsAux]
  | succ f ih =>
    cases m with
    | zero => simp [natDigitsAux]
    | succ k =>
      simp only [natDigitsAux]
      intro hc
      rcases List.mem_append.mp hc with h | h
      · exact ih ((k + 1) / 10) h
      · have heq : '.' = Char.ofNat (48 + (k + 1) % 10) := List.mem_singleton.mp h
        have := digit_char_prop ((k + 1) % 10) (Nat.mod_lt (k + 1) (by omega))
        exact this.2 heq.symm

theorem natDigits_no_dot (n : Nat) : '.' ∉ natDigits n := by
  unfold natDigits
  by_cases h : n = 0
  · simp [h]
  · rw [if_neg h]
    exact natDigitsAux_no_dot n n

/-- The formatted string is sign and integer digits, then one dot, then
exactly prec digit characters. -/
theorem fmtFixed_decimals (prec : Nat) (q : ℚ) :
    ∃ as ds, (fmtFixed prec q).data = as ++ '.' :: ds ∧ '.' ∉ as ∧
      ds.length = prec ∧ ∀ c ∈ ds, c.isDigit = true := by
  refine ⟨(if pyRound prec q < 0 then ['-'] else []) ++
      natDigits ((pyRound prec q).natAbs / 10 ^ prec),
    digitChars prec ((pyRound prec q).natAbs % 10 ^ prec), ?_, ?_, ?_, ?_⟩
  · show (fmtFixed prec q).data = _
    unfold fmtFixed
    simp only [List.append_assoc]
  · intro h
    rcases List.mem_append.mp h with h1 | h1
    · by_cases hn : pyRound prec q < 0
      · rw [if_pos hn] at h1
        exact absurd (List.mem_singleton.mp h1) (by decide)
      · rw [if_neg hn] at h1
        simp at h1
    · exact natDigits_no_dot _ h1
  · exact digitChars_length prec _
  · intro c hc
    exact (digitChars_digits prec _ c hc).1

/-- C2: the translation emitted for a bone with a parent is the head
position minus the parent head position, componentwise; for a root bone it
is the head position unmodified; and every emitted coordinate string
carries exactly five digits after the decimal point. -/
theorem c2_bone_translation :
    (∀ p h : Vec3, write_bone_translation (some p) h =
      (fmtFixed 5 (h.x - p.x), fmtFixed 5 (h.y - p.y), fmtFixed 5 (h.z - p.z))) ∧
    (∀ h : Vec3, write_bone_translation none h =
      (fmtFixed 5 h.x, fmtFixed 5 h.y, fmtFixed 5 h.z)) ∧
    (∀ q : ℚ, ∀ s ∈ [(write_bone_translation none ⟨q, q, q⟩).1],
      ∃ as ds, s.data = as ++ '.' :: ds ∧ '.' ∉ as ∧ ds.length = 5 ∧
        ∀ c ∈ ds, c.isDigit = true) := by
  refine ⟨fun p h => rfl, fun h => rfl, fun q s hs => ?_⟩
  rw [List.mem_singleton.mp hs]
  exact fmtFixed_decimals 5 q

/-! ## Dict lemmas -/

theorem dget_append {α β : Type} [DecidableEq α] (d1 d2 : List (α × β)) (a : α) :
    dget (d1 ++ d2) a =
      match dget d1 a with
      | some v => some v
      | none => dget d2 a := by
  induction d1 with
  | nil => simp [dget]
  | cons p d ih =>
    by_cases h : p.1 = a
    · simp [dget, h]
    · simp [dget, h, ih]

theorem dget_map_overwrite {α β : Type} [DecidableEq α] (d : List (α × β)) (k : α) (v : β)
    (h : (dget d k).isSome = true) :
    dget (d.map (fun p => if p.1 = k then (k, v) else p)) k = some v := by
  induction d with
  | nil => simp [dget] at h
  | cons p d ih =>
    by_cases hp : p.1 = k
    · simp [dget, hp]
    · simp only [List.map_cons, if_neg hp]
      rw [show dget ((p :: d.map (fun p => if p.1 = k then (k, v) else p))) k =
        dget (d.map (fun p => if p.1 = k then (k, v) else p)) k from by simp [dget, hp]]
      apply ih
      simpa [dget, hp] using h

theorem dget_map_overwrite_ne {α β : Type} [DecidableEq α] (d : List (α × β)) (k a : α)
    (v : β) (hne : a ≠ k) :
    dget (d.map (fun p => if p.1 = k then (k, v) else p)) a = dget d a := by
  induction d with
  | nil => rfl
  | cons p d ih =>
    have hka : ¬ k = a := fun h => hne h.symm
    by_cases hp : p.1 = k
    · have hpa : ¬ p.1 = a := by rw [hp]; exact hka
      simp only [List.map_cons, if_pos hp, dget]
      rw [if_neg hka, if_neg hpa, ih]
    · simp only [List.map_cons, if_neg hp, dget]
      by_cases hpa : p.1 = a
      · rw [if_pos hpa, if_pos hpa]
      · rw [if_neg hpa, if_neg hpa, ih]

theorem dget_dset_self {α β : Type} [DecidableEq α] (d : List (α × β)) (k : α) (v : β) :
    dget (dset d k v) k = some v := by
  unfold dset
  by_cases h : (dget d k).isSome
  · rw [if_pos h]
    exact dget_map_overwrite d k v h
  · rw [if_neg h, dget_append]
    have hn : dget d k = none := Option.not_isSome_iff_eq_none.mp h
    simp [hn, dget]

theorem dget_dset_ne {α β : Type} [DecidableEq α] (d : List (α × β)) (k a : α) (v : β)
    (hne : a ≠ k) : dget (dset d k v) a = dget d a := by
  unfold dset
  by_cases h : (dget d k).isSome
  · rw [if_pos h]
    exact dget_map_overwrite_ne d k a v hne
  · rw [if_neg h, dget_append]
    cases hd : dget d a with
    | some u => rfl
    | none =>
      have hka : ¬ k = a := fun hh => hne hh.symm
      simp [dget, hka]

/-! ## Claim C4 -/

/-- C4: requesting relocation of the same source path twice performs
exactly one copy operation in total (one on the first call, none on the
second, thanks to the copied-files registry keyed by the original path)
and both calls return the identical destination path. -/
theorem c4_texture_dedup (w : EggWorker) (image : ImageData)
    (h : dget w.copied_files image.filepath = none) :
    (copy_texture_to_new_location w image).copies.length = 1 ∧
    (copy_texture_to_new_location (copy_texture_to_new_location w image).worker image).copies = [] ∧
    (copy_texture_to_new_location (copy_texture_to_new_location w image).worker image).path =
      (copy_texture_to_new_location w image).path := by
  have h1 : (dget w.copied_files image.filepath).isSome = false := by
    rw [h]
    rfl
  unfold copy_texture_to_new_location
  simp only [h1, Bool.false_eq_true, if_false, dget_dset_self, Option.isSome_some, if_true]
  exact ⟨rfl, trivial, trivial⟩

/-- C4 witness: concrete first and second relocation of the same image. -/
theorem c4_texture_dedup_witness :
    (copy_texture_to_new_location sampleWorker sampleImage).copies.length = 1 ∧
    (copy_texture_to_new_location
      (copy_texture_to_new_location sampleWorker sampleImage).worker sampleImage).copies = [] ∧
    (copy_texture_to_new_location
      (copy_texture_to_new_location sampleWorker sampleImage).worker sampleImage).path =
      (copy_texture_to_new_location sampleWorker sampleImage).path :=
  c4_texture_dedup sampleWorker sampleImage (by decide)

/-! ## Claim C5 -/

/-- C5: the constructor parameter requesting absolute paths is ignored:
line 87 of the source stores the literal True, so a worker constructed
with use_rel_paths False still carries True and texture relocation still
returns the relative path form, not the absolute destination. -/
theorem c5_use_rel_paths_ignored :
    (ExportEggWorker.init emptyHuman 4 "/scene/out.egg" false).use_rel_paths = true ∧
    (copy_texture_to_new_location (ExportEggWorker.init emptyHuman 4 "/scene/out.egg" false)
      sampleImage).path = "textures/skin.png" ∧
    (copy_texture_to_new_location (ExportEggWorker.init emptyHuman 4 "/scene/out.egg" false)
      sampleImage).path ≠
      abspath (pathJoin (ExportEggWorker.init emptyHuman 4 "/scene/out.egg" false).tex_folder
        (basename sampleImage.filepath)) := by
  refine ⟨rfl, by decide, by decide⟩

/-! ## Tabulate and key lemmas -/

theorem dget_tabulate_mem {α β : Type} [DecidableEq α] (ks : List α) (F : α → β) (a : α)
    (h : a ∈ ks) : dget (tabulate ks F) a = some (F a) := by
  induction ks with
  | nil => simp at h
  | cons k ks ih =>
    by_cases hk : k = a
    · subst hk
      simp [tabulate, dget]
    · rcases List.mem_cons.mp h with h1 | h1
      · exact absurd h1.symm hk
      · simp only [tabulate, List.map_cons, dget, if_neg hk]
        exact ih h1

theorem dget_tabulate_not_mem {α β : Type} [DecidableEq α] (ks : List α) (F : α → β) (a : α)
    (h : a ∉ ks) : dget (tabulate ks F) a = none := by
  induction ks with
  | nil => rfl
  | cons k ks ih =>
    have hk : ¬ k = a := fun he => h (by simp [he])
    simp only [tabulate, List.map_cons, dget, if_neg hk]
    exact ih (fun hm => h (by simp [hm]))

theorem map_overwrite_tabulate {α β : Type} [DecidableEq α] (ks : List α) (F : α → β)
    (k : α) (X : β) :
    (tabulate ks F).map (fun p => if p.1 = k then (k, X) else p)
      = tabulate ks (fun x => if x = k then X else F x) := by
  induction ks with
  | nil => rfl
  | cons x ks ih =>
    simp only [tabulate, List.map_cons, List.map_map] at ih ⊢
    by_cases hx : x = k
    · subst hx
      simp only [if_pos rfl]
      rw [ih]
      simp
    · simp only [if_neg hx]
      rw [ih]

theorem dset_tabulate {α β : Type} [DecidableEq α] (ks : List α) (F : α → β) (k : α) (X : β)
    (h : k ∈ ks) :
    dset (tabulate ks F) k X = tabulate ks (fun x => if x = k then X else F x) := by
  unfold dset
  rw [if_pos (by rw [dget_tabulate_mem ks F k h]; rfl)]
  exact map_overwrite_tabulate ks F k X

theorem tabulate_congr {α β : Type} (ks : List α) (F G : α → β)
    (h : ∀ k ∈ ks, F k = G k) : tabulate ks F = tabulate ks G := by
  induction ks with
  | nil => rfl
  | cons k ks ih =>
    simp only [tabulate, List.map_cons]
    rw [h k (by simp)]
    have ht := ih (fun x hx => h x (by simp [hx]))
    simp only [tabulate] at ht
    rw [ht]

theorem dget_eq_none_of_not_mem_keys {α β : Type} [DecidableEq α] (d : List (α × β)) (a : α)
    (h : a ∉ dkeys d) : dget d a = none := by
  induction d with
  | nil => rfl
  | cons p d ih =>
    have hp : ¬ p.1 = a := fun he => h (by simp [dkeys, he])
    simp only [dget, if_neg hp]
    exact ih (fun hm => h (by simp only [dkeys, List.map_cons, List.mem_cons]; exact Or.inr hm))

theorem mem_keys_of_dget_isSome {α β : Type} [DecidableEq α] (d : List (α × β)) (a : α)
    (h : (dget d a).isSome = true) : a ∈ dkeys d := by
  induction d with
  | nil => simp [dget] at h
  | cons p d ih =>
    by_cases hp : p.1 = a
    · simp [dkeys, hp]
    · simp only [dget, if_neg hp] at h
      simp only [dkeys, List.map_cons, List.mem_cons]
      exact Or.inr (ih h)

theorem foldl_dset_fresh {α β : Type} [DecidableEq α] (v0 : β) (ks : List α) :
    ∀ (d : List (α × β)), ks.Nodup → (∀ k ∈ ks, dget d k = none) →
      ks.foldl (fun d k => dset d k v0) d = d ++ tabulate ks (fun _ => v0) := by
  induction ks with
  | nil =>
    intro d _ _
    simp [tabulate]
  | cons k ks ih =>
    intro d hnd hfresh
    simp only [List.foldl_cons]
    have h1 : dset d k v0 = d ++ [(k, v0)] := by
      unfold dset
      rw [if_neg (by rw [hfresh k (by simp)]; simp)]
    rw [h1, ih (d ++ [(k, v0)]) (List.nodup_cons.mp hnd).2 ?_]
    · simp [tabulate]
    · intro k2 hk2
      rw [dget_append, hfresh k2 (by simp [hk2])]
      have hne : ¬ k = k2 := fun he => (List.nodup_cons.mp hnd).1 (he ▸ hk2)
      simp [dget, hne]

/-! ## Initialization of the bone-mesh table -/

theorem inner_fill (names mesh_names : List String) (bn : String) (hbn : bn ∈ names) :
    ∀ (ms : List String) (G : String → MDict),
      ms.foldl (fun d mn => dset d bn (dset ((dget d bn).getD []) mn [])) (tabulate names G)
      = tabulate names (fun x =>
          if x = bn then ms.foldl (fun md mn => dset md mn []) (G bn) else G x) := by
  intro ms
  induction ms with
  | nil =>
    intro G
    symm
    apply tabulate_congr
    intro k _
    by_cases h : k = bn
    · rw [if_pos h, List.foldl_nil, h]
    · rw [if_neg h]
  | cons mn ms ih =>
    intro G
    simp only [List.foldl_cons]
    rw [dget_tabulate_mem names G bn hbn]
    simp only [Option.getD_some]
    rw [dset_tabulate names G bn (dset (G bn) mn []) hbn]
    rw [ih (fun x => if x = bn then dset (G bn) mn [] else G x)]
    apply tabulate_congr
    intro k _
    by_cases h : k = bn
    · rw [if_pos h, if_pos h, if_pos rfl]
    · rw [if_neg h, if_neg h, if_neg h]

theorem outer_fill (names mesh_names : List String) :
    ∀ (bs : List String) (G : String → MDict), bs.Nodup → (∀ b ∈ bs, b ∈ names) →
      bs.foldl (fun d bn =>
          mesh_names.foldl (fun d mn => dset d bn (dset ((dget d bn).getD []) mn [])) d)
        (tabulate names G)
      = tabulate names (fun x =>
          if x ∈ bs then mesh_names.foldl (fun md mn => dset md mn []) (G x) else G x) := by
  intro bs
  induction bs with
  | nil =>
    intro G _ _
    symm
    apply tabulate_congr
    intro k _
    simp
  | cons bn bs ih =>
    intro G hnd hsub
    simp only [List.foldl_cons]
    rw [inner_fill names mesh_names bn (hsub bn (by simp)) mesh_names G]
    rw [ih (fun x => if x = bn then mesh_names.foldl (fun md mn => dset md mn []) (G bn) else G x)
      (List.nodup_cons.mp hnd).2 (fun b hb => hsub b (by simp [hb]))]
    apply tabulate_congr
    intro k _
    by_cases h : k = bn
    · subst h
      have hk : k ∉ bs := (List.nodup_cons.mp hnd).1
      rw [if_neg hk, if_pos rfl, if_pos (by simp)]
    · by_cases h2 : k ∈ bs
      · rw [if_pos h2, if_neg h, if_pos (show k ∈ bn :: bs by simp [h2])]
      · have : k ∉ bn :: bs := by
          intro hm
          rcases List.mem_cons.mp hm with h1 | h1
          · exact h h1
          · exact h2 h1
        rw [if_neg h2, if_neg h, if_neg this]

theorem init_tabulate (names mesh_names : List String) (hn : names.Nodup)
    (hm : mesh_names.Nodup) :
    names.foldl (fun d bn =>
        mesh_names.foldl (fun d mn => dset d bn (dset ((dget d bn).getD []) mn [])) d)
      (names.foldl (fun d bn => dset d bn ([] : MDict)) [])
    = TabState names mesh_names (fun _ _ => []) := by
  have h0 : names.foldl (fun d bn => dset d bn ([] : MDict)) [] =
      tabulate names (fun _ => []) := by
    have := foldl_dset_fresh ([] : MDict) names [] hn (by intro k _; rfl)
    simpa using this
  rw [h0, outer_fill names mesh_names names (fun _ => []) hn (fun b hb => hb)]
  apply tabulate_congr
  intro k hk
  rw [if_pos hk]
  have := foldl_dset_fresh ([] : WDict) mesh_names [] hm (by intro k2 _; rfl)
  simpa using this

/-! ## Characterization of _mesh_to_weight_dict -/

theorem map_keysfree {α β : Type} [DecidableEq α] (d : List (α × β)) (k : α) (v : β)
    (h : k ∉ dkeys d) : d.map (fun p => if p.1 = k then (k, v) else p) = d := by
  induction d with
  | nil => rfl
  | cons p d ih =>
    have hp : ¬ p.1 = k := fun he => h (by simp [dkeys, he])
    simp only [List.map_cons, if_neg hp]
    rw [ih (fun hm => h (by simp only [dkeys, List.map_cons, List.mem_cons]; exact Or.inr hm))]

theorem dget_append_last {α β : Type} [DecidableEq α] (d : List (α × β)) (k : α) (cur : β)
    (h : k ∉ dkeys d) : dget (d ++ [(k, cur)]) k = some cur := by
  rw [dget_append, dget_eq_none_of_not_mem_keys d k h]
  simp [dget]

theorem dset_append_last {α β : Type} [DecidableEq α] (d : List (α × β)) (k : α)
    (cur v : β) (h : k ∉ dkeys d) : dset (d ++ [(k, cur)]) k v = d ++ [(k, v)] := by
  unfold dset
  rw [if_pos (by rw [dget_append_last d k cur h]; rfl)]
  rw [List.map_append, map_keysfree d k v h]
  simp

theorem dset_fresh {α β : Type} [DecidableEq α] (d : List (α × β)) (k : α) (v : β)
    (h : k ∉ dkeys d) : dset d k v = d ++ [(k, v)] := by
  unfold dset
  rw [if_neg (by rw [dget_eq_none_of_not_mem_keys d k h]; simp)]

theorem innerV (tot : Nat) (k : Nat) (gs : List VertWeight) :
    ∀ (wd0 : VDict) (cur : VGDict), k ∉ dkeys wd0 →
      gs.foldl (fun wd g =>
          if g.group < tot then dset wd k (dset ((dget wd k).getD []) g.group g.weight) else wd)
        (wd0 ++ [(k, cur)])
      = wd0 ++ [(k, gs.foldl (fun c g =>
          if g.group < tot then dset c g.group g.weight else c) cur)] := by
  induction gs with
  | nil => intro wd0 cur _; rfl
  | cons g gs ih =>
    intro wd0 cur hk
    simp only [List.foldl_cons]
    by_cases hr : g.group < tot
    · rw [if_pos hr, if_pos hr]
      rw [dget_append_last wd0 k cur hk]
      simp only [Option.getD_some]
      rw [dset_append_last wd0 k cur (dset cur g.group g.weight) hk]
      exact ih wd0 (dset cur g.group g.weight) hk
    · rw [if_neg hr, if_neg hr]
      exact ih wd0 cur hk

theorem innerVNew (tot : Nat) (k : Nat) (gs : List VertWeight) :
    ∀ (wd : VDict), k ∉ dkeys wd →
      gs.foldl (fun wd g =>
          if g.group < tot then dset wd k (dset ((dget wd k).getD []) g.group g.weight) else wd)
        wd
      = wd ++ (if inRangeGroups tot gs = [] then []
          else [(k, gs.foldl (fun c g =>
            if g.group < tot then dset c g.group g.weight else c) [])]) := by
  induction gs with
  | nil =>
    intro wd _
    simp [inRangeGroups]
  | cons g gs ih =>
    intro wd hk
    simp only [List.foldl_cons]
    by_cases hr : g.group < tot
    · rw [if_pos hr]
      rw [dget_eq_none_of_not_mem_keys wd k hk]
      simp only [Option.getD_none]
      rw [dset_fresh wd k (dset [] g.group g.weight) hk]
      rw [innerV tot k gs wd (dset [] g.group g.weight) hk]
      have hne : inRangeGroups tot (g :: gs) ≠ [] := by
        simp [inRangeGroups, List.filter_cons, hr]
      rw [if_neg hne]
      rw [if_pos hr]
    · rw [if_neg hr]
      rw [ih wd hk]
      have h1 : inRangeGroups tot (g :: gs) = inRangeGroups tot gs := by
        simp [inRangeGroups, List.filter_cons, hr]
      rw [h1, if_neg hr]

theorem content_pairs (tot : Nat) (gs : List VertWeight) :
    ∀ (cur : VGDict), (∀ g ∈ gs, g.group ∉ dkeys cur) → (gs.map VertWeight.group).Nodup →
      gs.foldl (fun c g => if g.group < tot then dset c g.group g.weight else c) cur
      = cur ++ inRangeGroups tot gs := by
  induction gs with
  | nil =>
    intro cur _ _
    simp [inRangeGroups]
  | cons g gs ih =>
    intro cur hfresh hnd
    rw [List.map_cons] at hnd
    have hnd1 : g.group ∉ gs.map VertWeight.group := (List.nodup_cons.mp hnd).1
    have hnd2 : (gs.map VertWeight.group).Nodup := (List.nodup_cons.mp hnd).2
    simp only [List.foldl_cons]
    by_cases hr : g.group < tot
    · rw [if_pos hr]
      rw [dset_fresh cur g.group g.weight (hfresh g (by simp))]
      rw [ih (cur ++ [(g.group, g.weight)]) ?_ hnd2]
      · simp only [List.append_assoc]
        have h1 : inRangeGroups tot (g :: gs) = (g.group, g.weight) :: inRangeGroups tot gs := by
          simp [inRangeGroups, List.filter_cons, hr]
        rw [h1]
        rfl
      · intro g2 hg2
        intro hmem
        simp only [dkeys, List.map_append] at hmem
        rcases List.mem_append.mp hmem with h1 | h1
        · exact hfresh g2 (by simp [hg2]) h1
        · simp at h1
          have hne : g2.group ≠ g.group := by
            intro he
            exact hnd1 (he ▸ (List.mem_map.mpr ⟨g2, hg2, rfl⟩))
          exact hne h1
    · rw [if_neg hr]
      rw [ih cur (fun g2 hg2 => hfresh g2 (by simp [hg2])) hnd2]
      have h1 : inRangeGroups tot (g :: gs) = inRangeGroups tot gs := by
        simp [inRangeGroups, List.filter_cons, hr]
      rw [h1]

theorem keys_vdictPartial (tot : Nat) (vs : List MVertex) :
    ∀ x ∈ dkeys (vdictPartial tot vs), x ∈ vs.map MVertex.index := by
  induction vs with
  | nil => simp [vdictPartial, dkeys]
  | cons v vs ih =>
    intro x hx
    simp only [vdictPartial, List.flatMap_cons] at hx
    by_cases h : inRangeGroups tot v.groups = []
    · rw [if_pos h] at hx
      simp only [List.nil_append] at hx
      exact List.mem_cons_of_mem _ (ih x hx)
    · rw [if_neg h] at hx
      simp only [dkeys, List.map_append, List.map_cons] at hx
      rcases List.mem_append.mp hx with h1 | h1
      · simp at h1
        simp [h1]
      · exact List.mem_cons_of_mem _ (ih x h1)

theorem vdictPartial_append (tot : Nat) (vs1 vs2 : List MVertex) :
    vdictPartial tot (vs1 ++ vs2) = vdictPartial tot vs1 ++ vdictPartial tot vs2 := by
  simp [vdictPartial]

theorem fold_vertices (tot : Nat) (vs : List MVertex) :
    ∀ (acc : List MVertex), ((acc ++ vs).map MVertex.index).Nodup →
      (∀ v ∈ vs, (v.groups.map VertWeight.group).Nodup) →
      vs.foldl (fun wd v =>
          v.groups.foldl (fun wd g =>
            if g.group < tot then dset wd v.index (dset ((dget wd v.index).getD []) g.group g.weight)
            else wd) wd)
        (vdictPartial tot acc)
      = vdictPartial tot (acc ++ vs) := by
  induction vs with
  | nil =>
    intro acc _ _
    simp
  | cons v vs ih =>
    intro acc hnd hgs
    simp only [List.foldl_cons]
    have hk : v.index ∉ dkeys (vdictPartial tot acc) := by
      intro hmem
      have h1 := keys_vdictPartial tot acc v.index hmem
      have h2 : (acc.map MVertex.index ++ (v :: vs).map MVertex.index).Nodup := by
        rw [← List.map_append]
        exact hnd
      have := List.disjoint_of_nodup_append h2
      exact this h1 (by simp)
    rw [innerVNew tot v.index v.groups (vdictPartial tot acc) hk]
    rw [content_pairs tot v.groups [] (by simp [dkeys]) (hgs v (by simp))]
    have hstep : vdictPartial tot acc ++
        (if inRangeGroups tot v.groups = [] then []
          else [(v.index, [] ++ inRangeGroups tot v.groups)])
        = vdictPartial tot (acc ++ [v]) := by
      rw [vdictPartial_append]
      congr 1
      simp [vdictPartial]
    rw [hstep]
    have hacc : ((acc ++ [v]) ++ vs).map MVertex.index = (acc ++ v :: vs).map MVertex.index := by
      simp
    rw [ih (acc ++ [v]) (by rw [hacc]; exact hnd) (fun v2 hv2 => hgs v2 (by simp [hv2]))]
    simp

theorem vdictPartial_zero (vs : List MVertex) : vdictPartial 0 vs = [] := by
  induction vs with
  | nil => rfl
  | cons v vs ih =>
    simp only [vdictPartial, List.flatMap_cons]
    have h : inRangeGroups 0 v.groups = [] := by
      simp [inRangeGroups, List.filter_eq_nil_iff]
    rw [if_pos h]
    simpa [vdictPartial] using ih

theorem mesh_to_weight_dict_eq (m : MeshObj)
    (hv : (m.vertices.map MVertex.index).Nodup)
    (hg : ∀ v ∈ m.vertices, (v.groups.map VertWeight.group).Nodup) :
    mesh_to_weight_dict m = (m.vertex_groups, vdictOf m) := by
  unfold mesh_to_weight_dict
  by_cases h0 : m.vertex_groups.length = 0
  · rw [if_pos h0]
    unfold vdictOf
    rw [h0, vdictPartial_zero]
  · rw [if_neg h0]
    simp only
    unfold vdictOf
    have := fold_vertices m.vertex_groups.length m.vertices [] (by simpa using hv) hg
    simp only [List.nil_append] at this
    rw [show vdictPartial m.vertex_groups.length [] = [] from rfl] at this
    rw [this]

/-! ## The triple stream of a mesh -/

theorem wdTriples_append (wd1 wd2 : VDict) :
    wdTriples (wd1 ++ wd2) = wdTriples wd1 ++ wdTriples wd2 := by
  simp [wdTriples]

theorem wdTriples_vdictPartial (tot : Nat) (vs : List MVertex) :
    wdTriples (vdictPartial tot vs)
      = vs.flatMap (fun v =>
          (v.groups.filter (fun g => decide (g.group < tot))).map
            (fun g => (v.index, g.group, g.weight))) := by
  induction vs with
  | nil => rfl
  | cons v vs ih =>
    simp only [vdictPartial, List.flatMap_cons]
    rw [wdTriples_append]
    unfold vdictPartial at ih
    rw [ih]
    congr 1
    by_cases h : inRangeGroups tot v.groups = []
    · rw [if_pos h]
      have h2 : v.groups.filter (fun g => decide (g.group < tot)) = [] := by
        have := congrArg (List.map Prod.fst) h
        unfold inRangeGroups at h
        exact List.map_eq_nil_iff.mp h
      rw [h2]
      rfl
    · rw [if_neg h]
      show (inRangeGroups tot v.groups).map (fun q => (v.index, q.1, q.2)) ++ [] = _
      rw [List.append_nil]
      unfold inRangeGroups
      rw [List.map_map]
      rfl

theorem wdTriples_vdictOf (m : MeshObj) : wdTriples (vdictOf m) = meshTriples m := by
  unfold vdictOf meshTriples
  exact wdTriples_vdictPartial m.vertex_groups.length m.vertices

theorem foldlM_nested_processTriple (fmt : ℚ → String) (gn : List String) (mn : String)
    (wd : VDict) :
    ∀ (init : BWDict),
      wd.foldlM (fun bwd p =>
        p.2.foldlM (fun bwd q => processTriple fmt gn mn bwd p.1 q.1 q.2) bwd) init
      = (wdTriples wd).foldlM
          (fun bwd t => processTriple fmt gn mn bwd t.1 t.2.1 t.2.2) init := by
  induction wd with
  | nil => intro init; rfl
  | cons p wd ih =>
    intro init
    rw [show wdTriples (p :: wd) = p.2.map (fun q => (p.1, q.1, q.2)) ++ wdTriples wd from rfl]
    rw [List.foldlM_append, List.foldlM_cons, List.foldlM_map]
    cases h : p.2.foldlM (fun bwd q => processTriple fmt gn mn bwd p.1 q.1 q.2) init with
    | none => simp
    | some mid => simp [ih mid]

/-! ## The effect of processTriple on the tabulated state -/

theorem processTriple_eq (fmt : ℚ → String) (gn : List String) (mn : String)
    (bwd : BWDict) (v g : Nat) (w : ℚ) :
    processTriple fmt gn mn bwd v g w =
      (gn[g]?).elim none (fun bone_name =>
        (dget bwd bone_name).elim none (fun mdict =>
          (dget mdict mn).elim none (fun weights =>
            if w ≠ 0 then
              some (dset bwd bone_name (dset mdict mn (addTriple weights (fmt w) v)))
            else some bwd))) := by
  unfold processTriple
  split
  · rename_i heq
    rw [heq]
    rfl
  · rename_i bone_name heq
    rw [heq]
    simp only [Option.elim_some]
    split
    · rename_i heq2
      rw [heq2]
      rfl
    · rename_i mdict heq2
      rw [heq2]
      simp only [Option.elim_some]
      split
      · rename_i heq3
        rw [heq3]
        rfl
      · rename_i weights heq3
        rw [heq3]
        simp only [Option.elim_some]
        rfl

theorem processTriple_tab (fmt : ℚ → String) (gn : List String)
    (names mesh_names : List String) (mn : String) (hmn : mn ∈ mesh_names)
    (M : String → String → WDict) (v g : Nat) (w : ℚ) (b0 : String)
    (hg : gn[g]? = some b0) (hb0 : b0 ∈ names) :
    processTriple fmt gn mn (TabState names mesh_names M) v g w
      = some (TabState names mesh_names (stepTriple fmt gn mn M (v, g, w))) := by
  rw [processTriple_eq]
  unfold stepTriple
  rw [hg, Option.elim_some, Option.elim_some]
  rw [show dget (TabState names mesh_names M) b0
      = some (tabulate mesh_names (M b0)) from dget_tabulate_mem names _ b0 hb0]
  rw [Option.elim_some]
  rw [dget_tabulate_mem mesh_names (M b0) mn hmn, Option.elim_some]
  by_cases hw : w ≠ 0
  · rw [if_pos hw, if_pos hw]
    unfold TabState
    rw [dset_tabulate mesh_names (M b0) mn _ hmn]
    rw [dset_tabulate names _ b0 _ hb0]
    congr 1
    apply tabulate_congr
    intro x _
    by_cases hx : x = b0
    · subst hx
      rw [if_pos rfl]
      apply tabulate_congr
      intro y _
      unfold upd2
      rw [if_pos rfl]
    · rw [if_neg hx]
      apply tabulate_congr
      intro y _
      unfold upd2
      rw [if_neg hx]
  · rw [if_neg hw, if_neg hw]

theorem foldlM_triples (fmt : ℚ → String) (gn : List String)
    (names mesh_names : List String) (mn : String) (hmn : mn ∈ mesh_names)
    (ts : List (Nat × Nat × ℚ)) :
    ∀ (M : String → String → WDict),
      (∀ t ∈ ts, ∃ b0, gn[t.2.1]? = some b0 ∧ b0 ∈ names) →
      ts.foldlM (fun bwd t => processTriple fmt gn mn bwd t.1 t.2.1 t.2.2)
        (TabState names mesh_names M)
      = some (TabState names mesh_names (accTriples fmt gn mn M ts)) := by
  induction ts with
  | nil => intro M _; rfl
  | cons t ts ih =>
    intro M hts
    obtain ⟨b0, hg, hb0⟩ := hts t (by simp)
    rw [List.foldlM_cons]
    rw [show processTriple fmt gn mn (TabState names mesh_names M) t.1 t.2.1 t.2.2
      = some (TabState names mesh_names (stepTriple fmt gn mn M (t.1, t.2.1, t.2.2)))
      from processTriple_tab fmt gn names mesh_names mn hmn M t.1 t.2.1 t.2.2 b0 hg hb0]
    simp only [Option.bind_eq_bind, Option.some_bind]
    rw [ih (stepTriple fmt gn mn M (t.1, t.2.1, t.2.2)) (fun t2 ht2 => hts t2 (by simp [ht2]))]
    rfl

/-! ## Pointwise description of the accumulated table -/

theorem accTriples_spec (fmt : ℚ → String) (gn : List String) (mn : String)
    (ts : List (Nat × Nat × ℚ)) :
    ∀ (M : String → String → WDict) (b mn2 : String),
      accTriples fmt gn mn M ts b mn2 =
        if mn2 = mn then
          ((ts.filter (fun t => decide (gn[t.2.1]? = some b ∧ t.2.2 ≠ 0))).map
            (fun t => (fmt t.2.2, t.1))).foldl (fun ws p => addTriple ws p.1 p.2) (M b mn)
        else M b mn2 := by
  induction ts with
  | nil =>
    intro M b mn2
    unfold accTriples
    simp only [List.foldl_nil, List.filter_nil, List.map_nil]
    by_cases h : mn2 = mn
    · rw [if_pos h, h]
    · rw [if_neg h]
  | cons t ts ih =>
    intro M b mn2
    unfold accTriples
    rw [List.foldl_cons]
    have hacc : ts.foldl (stepTriple fmt gn mn) (stepTriple fmt gn mn M t)
        = accTriples fmt gn mn (stepTriple fmt gn mn M t) ts := rfl
    rw [hacc, ih (stepTriple fmt gn mn M t) b mn2]
    cases hg : gn[t.2.1]? with
    | none =>
      have hstep : stepTriple fmt gn mn M t = M := by
        unfold stepTriple
        rw [hg]
        rfl
      have hfilt : (t :: ts).filter (fun t => decide (gn[t.2.1]? = some b ∧ t.2.2 ≠ 0))
          = ts.filter (fun t => decide (gn[t.2.1]? = some b ∧ t.2.2 ≠ 0)) := by
        rw [List.filter_cons]
        rw [if_neg (by simp [hg])]
      rw [hstep, hfilt]
    | some b0 =>
      by_cases hw : t.2.2 ≠ 0
      · have hstep : stepTriple fmt gn mn M t
            = upd2 M b0 mn (addTriple (M b0 mn) (fmt t.2.2) t.1) := by
          unfold stepTriple
          rw [hg]
          simp only [Option.elim_some]
          rw [if_pos hw]
        rw [hstep]
        by_cases hmn2 : mn2 = mn
        · rw [if_pos hmn2, if_pos hmn2]
          by_cases hb : b = b0
          · subst hb
            have hfilt : (t :: ts).filter (fun t => decide (gn[t.2.1]? = some b ∧ t.2.2 ≠ 0))
                = t :: ts.filter (fun t => decide (gn[t.2.1]? = some b ∧ t.2.2 ≠ 0)) := by
              rw [List.filter_cons, if_pos (by simp [hg, hw])]
            rw [hfilt, List.map_cons, List.foldl_cons]
            have hub : upd2 M b mn (addTriple (M b mn) (fmt t.2.2) t.1) b mn
                = addTriple (M b mn) (fmt t.2.2) t.1 := by
              unfold upd2
              rw [if_pos rfl, if_pos rfl]
            rw [hub]
          · have hfilt : (t :: ts).filter (fun t => decide (gn[t.2.1]? = some b ∧ t.2.2 ≠ 0))
                = ts.filter (fun t => decide (gn[t.2.1]? = some b ∧ t.2.2 ≠ 0)) := by
              rw [List.filter_cons]
              rw [if_neg (by simp [hg]; intro he; exact absurd he.symm hb)]
            rw [hfilt]
            have hub : upd2 M b0 mn (addTriple (M b0 mn) (fmt t.2.2) t.1) b mn = M b mn := by
              unfold upd2
              rw [if_neg hb]
            rw [hub]
        · rw [if_neg hmn2, if_neg hmn2]
          have hub : upd2 M b0 mn (addTriple (M b0 mn) (fmt t.2.2) t.1) b mn2 = M b mn2 := by
            unfold upd2
            by_cases hb : b = b0
            · rw [if_pos hb, if_neg hmn2]
            · rw [if_neg hb]
          rw [hub]
      · have hstep : stepTriple fmt gn mn M t = M := by
          unfold stepTriple
          rw [hg]
          simp only [Option.elim_some]
          rw [if_neg hw]
        have hfilt : (t :: ts).filter (fun t => decide (gn[t.2.1]? = some b ∧ t.2.2 ≠ 0))
            = ts.filter (fun t => decide (gn[t.2.1]? = some b ∧ t.2.2 ≠ 0)) := by
          rw [List.filter_cons]
          rw [if_neg (by simp [hw])]
        rw [hstep, hfilt]

/-! ## Resolving a mesh by name -/

theorem find?_name_self (children : List MeshObj) (m : MeshObj) (hm : m ∈ children)
    (hnd : (children.map MeshObj.name).Nodup) :
    children.find? (fun c => decide (c.name = m.name)) = some m := by
  induction children with
  | nil => simp at hm
  | cons c cs ih =>
    rw [List.map_cons] at hnd
    by_cases h : c.name = m.name
    · have hcm : c = m := by
        rcases List.mem_cons.mp hm with h1 | h1
        · exact h1.symm
        · exfalso
          apply (List.nodup_cons.mp hnd).1
          rw [h]
          exact List.mem_map.mpr ⟨m, h1, rfl⟩
      rw [List.find?_cons_of_pos _ (by simp [h])]
      rw [hcm]
    · rw [List.find?_cons_of_neg _ (by simp [h])]
      apply ih ?_ (List.nodup_cons.mp hnd).2
      rcases List.mem_cons.mp hm with h1 | h1
      · exact absurd (by rw [h1]) h
      · exact h1

theorem Mof_not_found (fmt : ℚ → String) (acc : List MeshObj) (b mn : String)
    (h : mn ∉ acc.map MeshObj.name) : Mof fmt acc b mn = [] := by
  unfold Mof
  rw [List.find?_eq_none.mpr ?_]
  · rfl
  · intro c hc
    simp only [decide_eq_true_eq]
    intro he
    exact h (he ▸ List.mem_map.mpr ⟨c, hc, rfl⟩)

theorem Mof_append_single_self (fmt : ℚ → String) (acc : List MeshObj) (m : MeshObj)
    (b : String) (hnm : m.name ∉ acc.map MeshObj.name) :
    Mof fmt (acc ++ [m]) b m.name = bucketsFor fmt m b := by
  unfold Mof
  rw [List.find?_append]
  rw [List.find?_eq_none.mpr ?_]
  · rw [Option.none_or]
    rw [List.find?_cons_of_pos _ (by simp)]
    rfl
  · intro c hc
    simp only [decide_eq_true_eq]
    intro he
    exact hnm (he ▸ List.mem_map.mpr ⟨c, hc, rfl⟩)

theorem Mof_append_single_other (fmt : ℚ → String) (acc : List MeshObj) (m : MeshObj)
    (b mn : String) (hne : mn ≠ m.name) :
    Mof fmt (acc ++ [m]) b mn = Mof fmt acc b mn := by
  unfold Mof
  rw [List.find?_append]
  cases h : acc.find? (fun c => decide (c.name = mn)) with
  | some c => rfl
  | none =>
    rw [Option.none_or]
    rw [List.find?_cons_of_neg _ (by simp; exact fun he => hne he.symm)]
    rfl

/-! ## The outer mesh loop of _meshes_to_weight_dict -/

theorem outer_loop (human : HumanObj) (fmt : ℚ → String)
    (hcn : (human.children.map MeshObj.name).Nodup)
    (hgb : ∀ m ∈ human.children, m.otype = "MESH" →
      ∀ gname ∈ m.vertex_groups, gname ∈ armBoneNames human.data)
    (hv : ∀ m ∈ human.children, (m.vertices.map MVertex.index).Nodup)
    (hg : ∀ m ∈ human.children, ∀ v ∈ m.vertices, (v.groups.map VertWeight.group).Nodup) :
    ∀ (rest acc : List MeshObj), meshesOf human = acc ++ rest →
      (rest.map MeshObj.name).foldlM (fun bwd mesh_name =>
          (human.children.find? (fun c => decide (c.name = mesh_name))).elim none
            (fun mesh =>
              (mesh_to_weight_dict mesh).2.foldlM (fun bwd p =>
                p.2.foldlM (fun bwd q =>
                  processTriple fmt (mesh_to_weight_dict mesh).1 mesh_name bwd p.1 q.1 q.2) bwd)
                bwd))
        (TabState (armBoneNames human.data) (meshNamesOf human) (Mof fmt acc))
      = some (TabState (armBoneNames human.data) (meshNamesOf human) (Mof fmt (acc ++ rest))) := by
  have hmnd : (meshNamesOf human).Nodup := by
    have hsub : List.Sublist ((meshesOf human).map MeshObj.name)
        (human.children.map MeshObj.name) :=
      List.Sublist.map MeshObj.name (List.filter_sublist human.children)
    exact hsub.nodup hcn
  intro rest
  induction rest with
  | nil =>
    intro acc hsplit
    simp
  | cons m rest ih =>
    intro acc hsplit
    have hmmesh : m ∈ meshesOf human := by
      rw [hsplit]
      exact List.mem_append_cons_self
    have hmchild : m ∈ human.children := List.mem_of_mem_filter hmmesh
    have hmtype : m.otype = "MESH" := by
      have := List.of_mem_filter hmmesh
      simpa using this
    have hnamesplit : meshNamesOf human
        = acc.map MeshObj.name ++ m.name :: rest.map MeshObj.name := by
      unfold meshNamesOf
      rw [hsplit]
      simp
    have hmn_in : m.name ∈ meshNamesOf human := by
      rw [hnamesplit]
      exact List.mem_append_cons_self
    have hmn_notacc : m.name ∉ acc.map MeshObj.name := by
      have h2 := hmnd
      rw [hnamesplit] at h2
      have hd := List.disjoint_of_nodup_append h2
      intro hmem
      exact hd hmem (by simp)
    have hts : ∀ t ∈ meshTriples m,
        ∃ b0, m.vertex_groups[t.2.1]? = some b0 ∧ b0 ∈ armBoneNames human.data := by
      intro t ht
      unfold meshTriples at ht
      obtain ⟨v, hvmem, ht2⟩ := List.mem_flatMap.mp ht
      obtain ⟨g, hgmem, ht3⟩ := List.mem_map.mp ht2
      have hgr : g.group < m.vertex_groups.length := by
        have := List.of_mem_filter hgmem
        simpa using this
      refine ⟨m.vertex_groups[g.group], ?_, ?_⟩
      · rw [← ht3]
        simp [List.getElem?_eq_getElem hgr]
      · exact hgb m hmchild hmtype _ (List.getElem_mem hgr)
    simp only [List.map_cons, List.foldlM_cons]
    rw [find?_name_self human.children m hmchild hcn, Option.elim_some]
    rw [mesh_to_weight_dict_eq m (hv m hmchild) (hg m hmchild)]
    rw [show ((m.vertex_groups, vdictOf m) : List String × VDict).2 = vdictOf m from rfl]
    rw [show ((m.vertex_groups, vdictOf m) : List String × VDict).1 = m.vertex_groups from rfl]
    rw [foldlM_nested_processTriple, wdTriples_vdictOf]
    rw [foldlM_triples fmt m.vertex_groups (armBoneNames human.data) (meshNamesOf human)
      m.name hmn_in (meshTriples m) (Mof fmt acc) hts]
    simp only [Option.bind_eq_bind, Option.some_bind]
    have hS1 : TabState (armBoneNames human.data) (meshNamesOf human)
        (accTriples fmt m.vertex_groups m.name (Mof fmt acc) (meshTriples m))
        = TabState (armBoneNames human.data) (meshNamesOf human) (Mof fmt (acc ++ [m])) := by
      unfold TabState
      apply tabulate_congr
      intro b _
      apply tabulate_congr
      intro mn2 _
      rw [accTriples_spec]
      by_cases hcase : mn2 = m.name
      · rw [if_pos hcase, hcase]
        rw [Mof_not_found fmt acc b m.name hmn_notacc]
        rw [Mof_append_single_self fmt acc m b hmn_notacc]
        rfl
      · rw [if_neg hcase]
        rw [Mof_append_single_other fmt acc m b mn2 hcase]
    rw [hS1]
    have hsplit2 : meshesOf human = (acc ++ [m]) ++ rest := by
      rw [hsplit, List.append_cons]
    rw [ih (acc ++ [m]) hsplit2]
    rw [← List.append_cons]

/-- The full characterization of the skin weight index: under the scene
invariants (unique object names, unique bone names, group names naming
bones, unique vertex indices, unique group indices per vertex), the
builder succeeds and every (bone, mesh) cell holds the bucket table built
from that mesh's surviving weight triples. -/
theorem meshes_to_weight_dict_char (human : HumanObj) (fmt : ℚ → String)
    (hbn : (armBoneNames human.data).Nodup)
    (hcn : (human.children.map MeshObj.name).Nodup)
    (hgb : ∀ m ∈ human.children, m.otype = "MESH" →
      ∀ gname ∈ m.vertex_groups, gname ∈ armBoneNames human.data)
    (hv : ∀ m ∈ human.children, (m.vertices.map MVertex.index).Nodup)
    (hg : ∀ m ∈ human.children, ∀ v ∈ m.vertices, (v.groups.map VertWeight.group).Nodup) :
    meshes_to_weight_dict human fmt
      = some (TabState (armBoneNames human.data) (meshNamesOf human)
          (Mof fmt (meshesOf human))) := by
  have hmnd : (meshNamesOf human).Nodup := by
    have hsub : List.Sublist ((meshesOf human).map MeshObj.name)
        (human.children.map MeshObj.name) :=
      List.Sublist.map MeshObj.name (List.filter_sublist human.children)
    exact hsub.nodup hcn
  have hdef : meshes_to_weight_dict human fmt
      = (meshNamesOf human).foldlM (fun bwd mesh_name =>
          match human.children.find? (fun c => decide (c.name = mesh_name)) with
          | none => none
          | some mesh =>
              (mesh_to_weight_dict mesh).2.foldlM (fun bwd p =>
                p.2.foldlM (fun bwd q =>
                  processTriple fmt (mesh_to_weight_dict mesh).1 mesh_name bwd p.1 q.1 q.2) bwd)
                bwd)
        ((armBoneNames human.data).foldl (fun d bn =>
            (meshNamesOf human).foldl (fun d mn => dset d bn (dset ((dget d bn).getD []) mn [])) d)
          ((armBoneNames human.data).foldl (fun d bn => dset d bn ([] : MDict)) [])) := rfl
  have hbody : (fun (bwd : BWDict) (mesh_name : String) =>
        match human.children.find? (fun c => decide (c.name = mesh_name)) with
        | none => none
        | some mesh =>
            (mesh_to_weight_dict mesh).2.foldlM (fun bwd p =>
              p.2.foldlM (fun bwd q =>
                processTriple fmt (mesh_to_weight_dict mesh).1 mesh_name bwd p.1 q.1 q.2) bwd)
              bwd)
      = (fun (bwd : BWDict) (mesh_name : String) =>
          (human.children.find? (fun c => decide (c.name = mesh_name))).elim none
            (fun mesh =>
              (mesh_to_weight_dict mesh).2.foldlM (fun bwd p =>
                p.2.foldlM (fun bwd q =>
                  processTriple fmt (mesh_to_weight_dict mesh).1 mesh_name bwd p.1 q.1 q.2) bwd)
                bwd)) := by
    funext bwd mesh_name
    cases human.children.find? (fun c => decide (c.name = mesh_name)) with
    | none => rfl
    | some mesh => rfl
  rw [hdef, hbody, init_tabulate (armBoneNames human.data) (meshNamesOf human) hbn hmnd]
  have h0 := outer_loop human fmt hcn hgb hv hg (meshesOf human) [] (by simp)
  simp only [List.nil_append] at h0
  exact h0

/-! ## Lemmas about the quantized-weight buckets -/

theorem isSome_dget_of_mem_keys {α β : Type} [DecidableEq α] (d : List (α × β)) (a : α)
    (h : a ∈ dkeys d) : (dget d a).isSome = true := by
  induction d with
  | nil => simp [dkeys] at h
  | cons p d ih =>
    by_cases hp : p.1 = a
    · simp [dget, hp]
    · simp only [dget, if_neg hp]
      simp only [dkeys, List.map_cons, List.mem_cons] at h
      rcases h with h1 | h1
      · exact absurd h1.symm hp
      · exact ih h1

theorem dkeys_map_overwrite {α β : Type} [DecidableEq α] (d : List (α × β)) (k : α) (v : β) :
    dkeys (d.map (fun p => if p.1 = k then (k, v) else p)) = dkeys d := by
  induction d with
  | nil => rfl
  | cons p d ih =>
    simp only [dkeys, List.map_cons] at ih ⊢
    by_cases hp : p.1 = k
    · rw [if_pos hp, ih, hp]
    · rw [if_neg hp, ih]

theorem dkeys_dset_nodup {α β : Type} [DecidableEq α] (d : List (α × β)) (k : α) (v : β)
    (hnd : (dkeys d).Nodup) : (dkeys (dset d k v)).Nodup := by
  unfold dset
  by_cases h : (dget d k).isSome
  · rw [if_pos h, dkeys_map_overwrite]
    exact hnd
  · rw [if_neg h]
    have hk : k ∉ dkeys d := fun hm => h (isSome_dget_of_mem_keys d k hm)
    simp only [dkeys, List.map_append, List.map_cons, List.map_nil] at hnd hk ⊢
    refine List.nodup_append.mpr ⟨hnd, by simp, ?_⟩
    intro a ha hb
    rw [List.mem_singleton] at hb
    subst hb
    exact hk ha

theorem foldl_addTriple_keys_nodup (ps : List (String × Nat)) :
    ∀ ws : WDict, (dkeys ws).Nodup →
      (dkeys (ps.foldl (fun ws p => addTriple ws p.1 p.2) ws)).Nodup := by
  induction ps with
  | nil => intro ws h; exact h
  | cons p ps ih =>
    intro ws h
    rw [List.foldl_cons]
    apply ih
    unfold addTriple
    cases dget ws p.1 <;> exact dkeys_dset_nodup ws p.1 _ h

theorem buildBuckets_keys_nodup (ps : List (String × Nat)) :
    (dkeys (buildBuckets ps)).Nodup :=
  foldl_addTriple_keys_nodup ps [] (by simp [dkeys])

theorem dget_addTriple (ws : WDict) (s0 : String) (v : Nat) (s : String) :
    dget (addTriple ws s0 v) s =
      if s = s0 then some (((dget ws s0).getD []) ++ [v]) else dget ws s := by
  unfold addTriple
  by_cases hs : s = s0
  · subst hs
    cases hg : dget ws s with
    | none =>
      rw [dget_dset_self, if_pos rfl]
      simp
    | some l =>
      rw [dget_dset_self, if_pos rfl]
      simp
  · rw [if_neg hs]
    cases hg : dget ws s0 with
    | none => exact dget_dset_ne ws s0 s [v] hs
    | some l => exact dget_dset_ne ws s0 s (l ++ [v]) hs

theorem dget_foldl_addTriple (ps : List (String × Nat)) :
    ∀ (ws : WDict) (s : String),
      dget (ps.foldl (fun ws p => addTriple ws p.1 p.2) ws) s =
        (dget ws s).elim
          (if ((ps.filter (fun p => decide (p.1 = s))).map Prod.snd) = [] then none
            else some ((ps.filter (fun p => decide (p.1 = s))).map Prod.snd))
          (fun l => some (l ++ (ps.filter (fun p => decide (p.1 = s))).map Prod.snd)) := by
  induction ps with
  | nil =>
    intro ws s
    simp only [List.foldl_nil, List.filter_nil, List.map_nil]
    cases dget ws s <;> simp
  | cons p ps ih =>
    intro ws s
    rw [List.foldl_cons, ih (addTriple ws p.1 p.2) s, dget_addTriple ws p.1 p.2 s]
    by_cases hs : s = p.1
    · subst hs
      rw [if_pos rfl]
      have hfil : (p :: ps).filter (fun q => decide (q.1 = p.1))
          = p :: ps.filter (fun q => decide (q.1 = p.1)) :=
        List.filter_cons_of_pos (by simp)
      rw [hfil, List.map_cons]
      cases hg : dget ws p.1 with
      | none => simp
      | some l => simp [List.append_assoc]
    · rw [if_neg hs]
      have hfil : (p :: ps).filter (fun q => decide (q.1 = s))
          = ps.filter (fun q => decide (q.1 = s)) :=
        List.filter_cons_of_neg (by simp; exact fun h => hs h.symm)
      rw [hfil]

theorem dget_buildBuckets (ps : List (String × Nat)) (s : String) :
    dget (buildBuckets ps) s =
      if ((ps.filter (fun p => decide (p.1 = s))).map Prod.snd) = [] then none
      else some ((ps.filter (fun p => decide (p.1 = s))).map Prod.snd) := by
  unfold buildBuckets
  rw [dget_foldl_addTriple ps [] s]
  rfl

theorem joinVals_cons (a : String) (bs : List Nat) (d : WDict) :
    joinVals ((a, bs) :: d) = bs ++ joinVals d := rfl

theorem joinVals_append (d1 d2 : WDict) :
    joinVals (d1 ++ d2) = joinVals d1 ++ joinVals d2 := by
  induction d1 with
  | nil => rfl
  | cons p d ih =>
    simp only [List.cons_append, joinVals, List.append_eq]
    rw [ih, List.append_assoc]

theorem dget_some_split {α β : Type} [DecidableEq α] (d : List (α × β)) (k : α) (l : β)
    (h : dget d k = some l) :
    ∃ d1 d2, d = d1 ++ (k, l) :: d2 ∧ k ∉ dkeys d1 := by
  induction d with
  | nil => simp [dget] at h
  | cons p d ih =>
    by_cases hp : p.1 = k
    · refine ⟨[], d, ?_, by simp [dkeys]⟩
      simp only [dget, if_pos hp] at h
      have h2 := Option.some.inj h
      simp only [List.nil_append]
      rw [← hp, ← h2]
    · simp only [dget, if_neg hp] at h
      obtain ⟨d1, d2, heq, hk⟩ := ih h
      refine ⟨p :: d1, d2, ?_, ?_⟩
      · rw [List.cons_append, heq]
      · simp only [dkeys, List.map_cons, List.mem_cons]
        intro hor
        rcases hor with h1 | h1
        · exact hp h1.symm
        · exact hk h1

theorem dset_split {α β : Type} [DecidableEq α] (d1 d2 : List (α × β)) (k : α) (l v : β)
    (h1 : k ∉ dkeys d1) (h2 : k ∉ dkeys d2) :
    dset (d1 ++ (k, l) :: d2) k v = d1 ++ (k, v) :: d2 := by
  unfold dset
  have hget : dget (d1 ++ (k, l) :: d2) k = some l := by
    rw [dget_append, dget_eq_none_of_not_mem_keys d1 k h1]
    simp [dget]
  rw [if_pos (by rw [hget]; rfl)]
  rw [List.map_append, map_keysfree d1 k v h1, List.map_cons, map_keysfree d2 k v h2]
  simp

theorem joinVals_addTriple_perm (ws : WDict) (s : String) (v : Nat)
    (hnd : (dkeys ws).Nodup) :
    (joinVals (addTriple ws s v)).Perm (joinVals ws ++ [v]) := by
  cases hg : dget ws s with
  | none =>
    have haddt : addTriple ws s v = dset ws s [v] := by
      unfold addTriple
      rw [hg]
    have hk : s ∉ dkeys ws := by
      intro hm
      have hi := isSome_dget_of_mem_keys ws s hm
      rw [hg] at hi
      exact Bool.noConfusion hi
    rw [haddt, dset_fresh ws s [v] hk, joinVals_append]
    exact List.Perm.refl _
  | some l =>
    have haddt : addTriple ws s v = dset ws s (l ++ [v]) := by
      unfold addTriple
      rw [hg]
    obtain ⟨d1, d2, heq, hk1⟩ := dget_some_split ws s l hg
    have hk2 : s ∉ dkeys d2 := by
      rw [heq] at hnd
      simp only [dkeys, List.map_append, List.map_cons] at hnd
      have hsub : List.Sublist (s :: List.map Prod.fst d2)
          (List.map Prod.fst d1 ++ s :: List.map Prod.fst d2) :=
        List.sublist_append_right _ _
      exact (List.nodup_cons.mp (hsub.nodup hnd)).1
    rw [haddt, heq]
    rw [dset_split d1 d2 s l (l ++ [v]) hk1 hk2]
    rw [joinVals_append, joinVals_append, joinVals_cons, joinVals_cons]
    have h1 : ((l ++ [v]) ++ joinVals d2).Perm ((l ++ joinVals d2) ++ [v]) := by
      rw [List.append_assoc, List.append_assoc]
      exact List.Perm.append_left l List.perm_append_comm
    rw [List.append_assoc (joinVals d1)]
    exact List.Perm.append_left _ h1

theorem joinVals_foldl_perm (ps : List (String × Nat)) :
    ∀ ws : WDict, (dkeys ws).Nodup →
      (joinVals (ps.foldl (fun ws p => addTriple ws p.1 p.2) ws)).Perm
        (joinVals ws ++ ps.map Prod.snd) := by
  induction ps with
  | nil =>
    intro ws h
    rw [List.foldl_nil, List.map_nil, List.append_nil]
  | cons p ps ih =>
    intro ws h
    rw [List.foldl_cons]
    have hnd2 : (dkeys (addTriple ws p.1 p.2)).Nodup := by
      unfold addTriple
      cases dget ws p.1 <;> exact dkeys_dset_nodup ws p.1 _ h
    have h1 := ih (addTriple ws p.1 p.2) hnd2
    have h2 := List.Perm.append_right (ps.map Prod.snd)
      (joinVals_addTriple_perm ws p.1 p.2 h)
    refine h1.trans (h2.trans ?_)
    rw [List.map_cons, List.append_assoc]
    exact List.Perm.refl _

theorem joinVals_buildBuckets_perm (ps : List (String × Nat)) :
    (joinVals (buildBuckets ps)).Perm (ps.map Prod.snd) := by
  unfold buildBuckets
  have h := joinVals_foldl_perm ps [] (by simp [dkeys])
  simp only [joinVals, List.nil_append] at h
  exact h

/-! ## Buckets versus the nonzero-weight vertices of a mesh -/

theorem getElem?_some_inj (l : List String) (hnd : l.Nodup) (i j : Nat) (b : String)
    (hi : l[i]? = some b) (hj : l[j]? = some b) : i = j := by
  obtain ⟨hil, hieq⟩ := List.getElem?_eq_some_iff.mp hi
  obtain ⟨hjl, hjeq⟩ := List.getElem?_eq_some_iff.mp hj
  exact (List.Nodup.getElem_inj_iff hnd).mp (by rw [hieq, hjeq])

/-- A single vertex feeds at most one surviving triple for a bone name:
its filtered, projected triple list is the singleton of its index when
some in-range group resolves to the bone with nonzero weight, else empty. -/
theorem per_vertex_bucket (gn : List String) (b : String) (hgnd : gn.Nodup)
    (idx : Nat) (gs : List VertWeight) (hnd : (gs.map VertWeight.group).Nodup) :
    (((gs.filter (fun g => decide (g.group < gn.length))).map
        (fun g => (idx, g.group, g.weight))).filter
      (fun t => decide (gn[t.2.1]? = some b ∧ t.2.2 ≠ 0))).map (fun t => t.1)
    = if gs.any (fun g => decide (gn[g.group]? = some b ∧ g.weight ≠ 0)) then [idx]
      else [] := by
  rw [List.filter_map, List.map_map, List.filter_filter]
  show List.map (fun _ => idx)
      (List.filter
        (fun a => decide (gn[a.group]? = some b ∧ a.weight ≠ 0) &&
          decide (a.group < gn.length)) gs)
    = if (gs.any fun g => decide (gn[g.group]? = some b ∧ g.weight ≠ 0)) = true
      then [idx] else []
  have hpt : ∀ a ∈ gs,
      (decide (gn[a.group]? = some b ∧ a.weight ≠ 0) && decide (a.group < gn.length))
        = decide (gn[a.group]? = some b ∧ a.weight ≠ 0) := by
    intro a _
    by_cases hA : gn[a.group]? = some b ∧ a.weight ≠ 0
    · have hC : a.group < gn.length := (List.getElem?_eq_some_iff.mp hA.1).1
      rw [decide_eq_true hA, decide_eq_true hC]
      rfl
    · rw [decide_eq_false hA]
      rfl
  rw [List.filter_congr hpt]
  by_cases hany : gs.any (fun g => decide (gn[g.group]? = some b ∧ g.weight ≠ 0))
  · rw [if_pos hany]
    obtain ⟨g0, hg0m, hg0⟩ := List.any_eq_true.mp hany
    have hmem : g0 ∈ gs.filter (fun g => decide (gn[g.group]? = some b ∧ g.weight ≠ 0)) :=
      List.mem_filter.mpr ⟨hg0m, hg0⟩
    cases hf : gs.filter (fun g => decide (gn[g.group]? = some b ∧ g.weight ≠ 0)) with
    | nil =>
      rw [hf] at hmem
      simp at hmem
    | cons a t =>
      cases t with
      | nil => rfl
      | cons a2 t2 =>
        exfalso
        have hsub := List.filter_sublist (p := fun g : VertWeight =>
          decide (gn[g.group]? = some b ∧ g.weight ≠ 0)) gs
        have hndf : ((gs.filter (fun g =>
            decide (gn[g.group]? = some b ∧ g.weight ≠ 0))).map VertWeight.group).Nodup :=
          (List.Sublist.map VertWeight.group hsub).nodup hnd
        rw [hf] at hndf
        have haf : a ∈ gs.filter (fun g => decide (gn[g.group]? = some b ∧ g.weight ≠ 0)) := by
          rw [hf]
          exact List.mem_cons_self a (a2 :: t2)
        have ha2f : a2 ∈ gs.filter (fun g => decide (gn[g.group]? = some b ∧ g.weight ≠ 0)) := by
          rw [hf]
          exact List.mem_cons.mpr (Or.inr (List.mem_cons_self a2 t2))
        have hA := of_decide_eq_true (List.mem_filter.mp haf).2
        have hA2 := of_decide_eq_true (List.mem_filter.mp ha2f).2
        have hgeq : a.group = a2.group :=
          getElem?_some_inj gn hgnd a.group a2.group b hA.1 hA2.1
        rw [List.map_cons, List.map_cons] at hndf
        exact (List.nodup_cons.mp hndf).1 (List.mem_cons.mpr (Or.inl hgeq))
  · rw [if_neg hany]
    have h0 : gs.filter (fun g => decide (gn[g.group]? = some b ∧ g.weight ≠ 0)) = [] := by
      rw [List.filter_eq_nil_iff]
      intro a ha hcontra
      exact hany (List.any_eq_true.mpr ⟨a, ha, hcontra⟩)
    rw [h0]
    rfl

theorem nonzeroVerts_cons (gn : List String) (b : String) (v : MVertex)
    (vs : List MVertex) :
    nonzeroVerts gn b (v :: vs)
      = (if vertexMatches gn b v then [v.index] else []) ++ nonzeroVerts gn b vs := by
  unfold nonzeroVerts
  rw [List.filter_cons]
  by_cases h : vertexMatches gn b v
  · rw [if_pos h, if_pos h, List.map_cons]
    rfl
  · rw [if_neg h, if_neg h]
    rfl

/-- The projected surviving triples of a vertex list are exactly its
nonzero-weight vertices for the bone, in vertex order. -/
theorem filtered_flatMap_eq_nonzeroVerts (gn : List String) (b : String) (hgnd : gn.Nodup) :
    ∀ (vs : List MVertex), (∀ v ∈ vs, (v.groups.map VertWeight.group).Nodup) →
      ((vs.flatMap (fun v => (v.groups.filter (fun g => decide (g.group < gn.length))).map
          (fun g => (v.index, g.group, g.weight)))).filter
        (fun t => decide (gn[t.2.1]? = some b ∧ t.2.2 ≠ 0))).map (fun t => t.1)
      = nonzeroVerts gn b vs := by
  intro vs
  induction vs with
  | nil => intro _; rfl
  | cons v vs ih =>
    intro hnd
    rw [List.flatMap_cons, List.filter_append, List.map_append,
        ih (fun u hu => hnd u (List.mem_cons.mpr (Or.inr hu))),
        per_vertex_bucket gn b hgnd v.index v.groups (hnd v (List.mem_cons_self v vs)),
        nonzeroVerts_cons]
    rfl

theorem survivingPairs_snd_eq_nonzeroVerts (fmt : ℚ → String) (m : MeshObj) (b : String)
    (hgnd : m.vertex_groups.Nodup)
    (hg : ∀ v ∈ m.vertices, (v.groups.map VertWeight.group).Nodup) :
    (survivingPairs fmt m b).map Prod.snd = nonzeroVerts m.vertex_groups b m.vertices := by
  unfold survivingPairs meshTriples
  rw [List.map_map]
  exact filtered_flatMap_eq_nonzeroVerts m.vertex_groups b hgnd m.vertices hg

theorem nonzeroVerts_nodup (gn : List String) (b : String) (vs : List MVertex)
    (hv : (vs.map MVertex.index).Nodup) : (nonzeroVerts gn b vs).Nodup := by
  unfold nonzeroVerts
  exact (List.Sublist.map MVertex.index (List.filter_sublist vs)).nodup hv

/-- The in-range guard of _mesh_to_weight_dict and the bone/zero filters of
_meshes_to_weight_dict compose to one filter of the raw triple stream. -/
theorem per_vertex_raw (gn : List String) (b : String) (idx : Nat) (gs : List VertWeight) :
    ((gs.filter (fun g => decide (g.group < gn.length))).map
        (fun g => (idx, g.group, g.weight))).filter
      (fun t => decide (gn[t.2.1]? = some b ∧ t.2.2 ≠ 0))
    = (gs.map (fun g => (idx, g.group, g.weight))).filter
        (fun t => decide (t.2.1 < gn.length ∧ gn[t.2.1]? = some b ∧ t.2.2 ≠ 0)) := by
  rw [List.filter_map, List.filter_map, List.filter_filter]
  congr 1
  apply List.filter_congr
  intro g _
  show (decide (gn[g.group]? = some b ∧ g.weight ≠ 0) && decide (g.group < gn.length))
    = decide (g.group < gn.length ∧ gn[g.group]? = some b ∧ g.weight ≠ 0)
  by_cases h1 : g.group < gn.length <;>
    by_cases h2 : gn[g.group]? = some b ∧ g.weight ≠ 0 <;>
      simp [h1, h2]

theorem survivingPairs_raw (fmt : ℚ → String) (m : MeshObj) (b : String) :
    survivingPairs fmt m b
    = ((m.vertices.flatMap (fun v =>
          v.groups.map (fun g => (v.index, g.group, g.weight)))).filter
        (fun t => decide (t.2.1 < m.vertex_groups.length ∧
          m.vertex_groups[t.2.1]? = some b ∧ t.2.2 ≠ 0))).map
      (fun t => (fmt t.2.2, t.1)) := by
  unfold survivingPairs meshTriples
  congr 1
  rw [List.filter_flatMap, List.filter_flatMap]
  congr 1
  funext v
  exact per_vertex_raw m.vertex_groups b v.index v.groups

/-- Locating the bucket table of a (bone, mesh) pair inside the nested
dict the builder returns. -/
theorem weight_cell_eq (human : HumanObj) (fmt : ℚ → String)
    (hbn : (armBoneNames human.data).Nodup)
    (hcn : (human.children.map MeshObj.name).Nodup)
    (b : String) (hb : b ∈ armBoneNames human.data)
    (m : MeshObj) (hm : m ∈ meshesOf human) :
    dget (TabState (armBoneNames human.data) (meshNamesOf human)
        (Mof fmt (meshesOf human))) b
      = some (tabulate (meshNamesOf human) (Mof fmt (meshesOf human) b)) ∧
    dget (tabulate (meshNamesOf human) (Mof fmt (meshesOf human) b)) m.name
      = some (bucketsFor fmt m b) := by
  have hmnd : (meshNamesOf human).Nodup := by
    have hsub : List.Sublist ((meshesOf human).map MeshObj.name)
        (human.children.map MeshObj.name) :=
      List.Sublist.map MeshObj.name (List.filter_sublist human.children)
    exact hsub.nodup hcn
  constructor
  · unfold TabState
    exact dget_tabulate_mem _ _ b hb
  · have hmm : m.name ∈ meshNamesOf human := List.mem_map.mpr ⟨m, hm, rfl⟩
    rw [dget_tabulate_mem _ _ m.name hmm]
    unfold Mof
    rw [find?_name_self (meshesOf human) m hm hmnd]
    rfl

/-! ## Claim C1 -/

/-- C1: under the scene invariants (unique bone names, unique mesh object
names, vertex-group names naming bones of the armature, unique vertex
indices per mesh, unique group indices per vertex, unique vertex-group
names per mesh), _meshes_to_weight_dict succeeds and its skin weight
index holds an entry for every (bone name, mesh name) pair; for each
pair the concatenation of all quantized-weight buckets is a permutation
of the mesh's nonzero-weight vertex indices for that bone — no vertex
duplicated, none omitted — and every bucket holds exactly the surviving
vertices sharing its quantized string, in encounter order, so indices
are appended to a bucket and never overwrite it. -/
theorem c1_weight_index_complete (human : HumanObj) (fmt : ℚ → String)
    (hbn : (armBoneNames human.data).Nodup)
    (hcn : (human.children.map MeshObj.name).Nodup)
    (hgb : ∀ m ∈ human.children, m.otype = "MESH" →
      ∀ gname ∈ m.vertex_groups, gname ∈ armBoneNames human.data)
    (hgn : ∀ m ∈ human.children, m.vertex_groups.Nodup)
    (hv : ∀ m ∈ human.children, (m.vertices.map MVertex.index).Nodup)
    (hg : ∀ m ∈ human.children, ∀ v ∈ m.vertices, (v.groups.map VertWeight.group).Nodup) :
    ∃ bwd, meshes_to_weight_dict human fmt = some bwd ∧
      ∀ b ∈ armBoneNames human.data, ∀ m ∈ meshesOf human,
        ∃ md ws, dget bwd b = some md ∧ dget md m.name = some ws ∧
          (joinVals ws).Perm (nonzeroVerts m.vertex_groups b m.vertices) ∧
          (joinVals ws).Nodup ∧
          ∀ s, dget ws s =
            if ((survivingPairs fmt m b).filter (fun p => decide (p.1 = s))).map Prod.snd
                = [] then none
            else some (((survivingPairs fmt m b).filter
              (fun p => decide (p.1 = s))).map Prod.snd) := by
  refine ⟨TabState (armBoneNames human.data) (meshNamesOf human) (Mof fmt (meshesOf human)),
    meshes_to_weight_dict_char human fmt hbn hcn hgb hv hg, ?_⟩
  intro b hb m hm
  obtain ⟨h1, h2⟩ := weight_cell_eq human fmt hbn hcn b hb m hm
  have hm2 : m ∈ human.children := List.mem_of_mem_filter hm
  have hperm : (joinVals (bucketsFor fmt m b)).Perm
      (nonzeroVerts m.vertex_groups b m.vertices) := by
    have hp := joinVals_buildBuckets_perm (survivingPairs fmt m b)
    rw [survivingPairs_snd_eq_nonzeroVerts fmt m b (hgn m hm2) (hg m hm2)] at hp
    exact hp
  exact ⟨tabulate (meshNamesOf human) (Mof fmt (meshesOf human) b), bucketsFor fmt m b,
    h1, h2, hperm,
    hperm.nodup_iff.mpr (nonzeroVerts_nodup m.vertex_groups b m.vertices (hv m hm2)),
    fun s => dget_buildBuckets (survivingPairs fmt m b) s⟩

/-- Instantiation of the C1 theorem at the concrete sample scene; every
hypothesis is checked by evaluation. -/
theorem c1_weight_index_complete_witness :
    ∃ bwd, meshes_to_weight_dict sampleScene (fmtFixed 4) = some bwd ∧
      ∀ b ∈ armBoneNames sampleScene.data, ∀ m ∈ meshesOf sampleScene,
        ∃ md ws, dget bwd b = some md ∧ dget md m.name = some ws ∧
          (joinVals ws).Perm (nonzeroVerts m.vertex_groups b m.vertices) ∧
          (joinVals ws).Nodup ∧
          ∀ s, dget ws s =
            if ((survivingPairs (fmtFixed 4) m b).filter
                (fun p => decide (p.1 = s))).map Prod.snd = [] then none
            else some (((survivingPairs (fmtFixed 4) m b).filter
              (fun p => decide (p.1 = s))).map Prod.snd) :=
  c1_weight_index_complete sampleScene (fmtFixed 4) (by decide) (by decide) (by decide)
    (by decide) (by decide) (by decide)

/-! ## Claim C3 -/

/-- C3: while building the skin weight index, a (vertex, group, weight)
triple whose group index is out of range for the mesh's vertex-group
name list is skipped (the source guard keeps g.group < len(group_names),
so indices at or above the length never pass), and a triple whose weight
is exactly 0 is skipped; the bucket table of each (bone, mesh) pair is
built from exactly the raw triples passing both guards and resolving to
that bone, and each such triple contributes its vertex index to exactly
one bucket, the one keyed by its quantized weight string. -/
theorem c3_skip_rules (human : HumanObj) (fmt : ℚ → String)
    (hbn : (armBoneNames human.data).Nodup)
    (hcn : (human.children.map MeshObj.name).Nodup)
    (hgb : ∀ m ∈ human.children, m.otype = "MESH" →
      ∀ gname ∈ m.vertex_groups, gname ∈ armBoneNames human.data)
    (hgn : ∀ m ∈ human.children, m.vertex_groups.Nodup)
    (hv : ∀ m ∈ human.children, (m.vertices.map MVertex.index).Nodup)
    (hg : ∀ m ∈ human.children, ∀ v ∈ m.vertices, (v.groups.map VertWeight.group).Nodup) :
    ∃ bwd, meshes_to_weight_dict human fmt = some bwd ∧
      ∀ b ∈ armBoneNames human.data, ∀ m ∈ meshesOf human,
        ∃ md ws, dget bwd b = some md ∧ dget md m.name = some ws ∧
          ws = buildBuckets (((m.vertices.flatMap (fun v =>
                v.groups.map (fun g => (v.index, g.group, g.weight)))).filter
              (fun t => decide (t.2.1 < m.vertex_groups.length ∧
                m.vertex_groups[t.2.1]? = some b ∧ t.2.2 ≠ 0))).map
            (fun t => (fmt t.2.2, t.1))) ∧
          ∀ v ∈ m.vertices, ∀ g ∈ v.groups,
            m.vertex_groups[g.group]? = some b → g.weight ≠ 0 →
              (joinVals ws).count v.index = 1 ∧
              ∃ l, dget ws (fmt g.weight) = some l ∧ v.index ∈ l := by
  refine ⟨TabState (armBoneNames human.data) (meshNamesOf human) (Mof fmt (meshesOf human)),
    meshes_to_weight_dict_char human fmt hbn hcn hgb hv hg, ?_⟩
  intro b hb m hm
  obtain ⟨h1, h2⟩ := weight_cell_eq human fmt hbn hcn b hb m hm
  have hm2 : m ∈ human.children := List.mem_of_mem_filter hm
  have hperm : (joinVals (bucketsFor fmt m b)).Perm
      (nonzeroVerts m.vertex_groups b m.vertices) := by
    have hp := joinVals_buildBuckets_perm (survivingPairs fmt m b)
    rw [survivingPairs_snd_eq_nonzeroVerts fmt m b (hgn m hm2) (hg m hm2)] at hp
    exact hp
  refine ⟨tabulate (meshNamesOf human) (Mof fmt (meshesOf human) b), bucketsFor fmt m b,
    h1, h2, congrArg buildBuckets (survivingPairs_raw fmt m b), ?_⟩
  intro v hvm g hgm hlook hwz
  constructor
  · have hmatch : vertexMatches m.vertex_groups b v = true := by
      unfold vertexMatches
      rw [List.any_eq_true]
      exact ⟨g, hgm, decide_eq_true ⟨hlook, hwz⟩⟩
    have hmem : v.index ∈ nonzeroVerts m.vertex_groups b m.vertices :=
      List.mem_map.mpr ⟨v, List.mem_filter.mpr ⟨hvm, hmatch⟩, rfl⟩
    rw [hperm.count_eq]
    exact List.count_eq_one_of_mem
      (nonzeroVerts_nodup m.vertex_groups b m.vertices (hv m hm2)) hmem
  · have hpair : (fmt g.weight, v.index) ∈ survivingPairs fmt m b := by
      unfold survivingPairs
      apply List.mem_map.mpr
      refine ⟨(v.index, g.group, g.weight), ?_, rfl⟩
      apply List.mem_filter.mpr
      refine ⟨?_, decide_eq_true ⟨hlook, hwz⟩⟩
      unfold meshTriples
      apply List.mem_flatMap.mpr
      refine ⟨v, hvm, ?_⟩
      apply List.mem_map.mpr
      refine ⟨g, ?_, rfl⟩
      apply List.mem_filter.mpr
      exact ⟨hgm, decide_eq_true (List.getElem?_eq_some_iff.mp hlook).1⟩
    have hdg := dget_buildBuckets (survivingPairs fmt m b) (fmt g.weight)
    have hmemf : (fmt g.weight, v.index) ∈
        (survivingPairs fmt m b).filter (fun p => decide (p.1 = fmt g.weight)) :=
      List.mem_filter.mpr ⟨hpair, decide_eq_true rfl⟩
    have hne : ((survivingPairs fmt m b).filter
        (fun p => decide (p.1 = fmt g.weight))).map Prod.snd ≠ [] := by
      intro h0
      rw [List.map_eq_nil_iff] at h0
      rw [h0] at hmemf
      simp at hmemf
    rw [if_neg hne] at hdg
    exact ⟨_, hdg, List.mem_map.mpr ⟨(fmt g.weight, v.index), hmemf, rfl⟩⟩

/-- Instantiation of the C3 theorem at the concrete sample scene, whose
mesh has one out-of-range group index and one exactly-zero weight; every
hypothesis is checked by evaluation. -/
theorem c3_skip_rules_witness :
    ∃ bwd, meshes_to_weight_dict sampleScene (fmtFixed 4) = some bwd ∧
      ∀ b ∈ armBoneNames sampleScene.data, ∀ m ∈ meshesOf sampleScene,
        ∃ md ws, dget bwd b = some md ∧ dget md m.name = some ws ∧
          ws = buildBuckets (((m.vertices.flatMap (fun v =>
                v.groups.map (fun g => (v.index, g.group, g.weight)))).filter
              (fun t => decide (t.2.1 < m.vertex_groups.length ∧
                m.vertex_groups[t.2.1]? = some b ∧ t.2.2 ≠ 0))).map
            (fun t => (fmtFixed 4 t.2.2, t.1))) ∧
          ∀ v ∈ m.vertices, ∀ g ∈ v.groups,
            m.vertex_groups[g.group]? = some b → g.weight ≠ 0 →
              (joinVals ws).count v.index = 1 ∧
              ∃ l, dget ws (fmtFixed 4 g.weight) = some l ∧ v.index ∈ l :=
  c3_skip_rules sampleScene (fmtFixed 4) (by decide) (by decide) (by decide)
    (by decide) (by decide) (by decide)

/-! ## Claim C8 -/

/-- Content of a successful _write_materials run: one record per mesh in
order, each from the mesh's active material. -/
theorem write_materials_spec (ms : List MeshObj) (rs : List MaterialRecord)
    (h : write_materials ms = .ok rs) :
    ∃ mats : List MaterialData,
      ms.map MeshObj.active_material = mats.map some ∧
      rs.map MaterialRecord.material_name
        = mats.map (fun mat => good_material_name mat.name) := by
  induction ms generalizing rs with
  | nil =>
    simp only [write_materials] at h
    have hr := Except.ok.inj h
    subst hr
    exact ⟨[], rfl, rfl⟩
  | cons m ms ih =>
    simp only [write_materials] at h
    cases hwm : write_material m with
    | error e =>
      rw [hwm] at h
      exact absurd h (by simp)
    | ok r =>
      rw [hwm] at h
      cases hwms : write_materials ms with
      | error e =>
        rw [hwms] at h
        exact absurd h (by simp)
      | ok rs2 =>
        rw [hwms] at h
        have hr := Except.ok.inj h
        subst hr
        obtain ⟨mats, h1, h2⟩ := ih rs2 hwms
        unfold write_material at hwm
        cases ham : m.active_material with
        | none =>
          rw [ham] at hwm
          exact absurd hwm (by simp)
        | some mat =>
          rw [ham] at hwm
          have hrr := Except.ok.inj hwm
          refine ⟨mat :: mats, ?_, ?_⟩
          · simp only [List.map_cons, ham, h1]
          · simp only [List.map_cons, h2]
            rw [← hrr]

/-- C8 counterexample: two distinct meshes sharing one active material
yield two material records, not a single record for the shared material
(_write_materials has no deduplication). -/
theorem c8_counterexample :
    ∃ r1 r2, write_materials [plainMesh "Body", plainMesh "Head"] = .ok [r1, r2] ∧
      r1 = r2 ∧ r1.material_name = "Skin" :=
  ⟨_, _, rfl, rfl, rfl⟩

/-- C8 (amended): produce_egg writes one material record per exported
mesh — the mesh's active material, so meshes sharing a material yield
duplicate records — and the material section precedes the groups block
holding all geometry in the emission order. -/
theorem c8_materials_amended (w : EggWorker) (blend_name : String) (fmt : ℚ → String)
    (doc : EggDocument) (h : produce_egg w blend_name fmt = .ok doc) :
    write_materials (meshesOf w.human) = .ok doc.materials ∧
    (∃ mats : List MaterialData,
      (meshesOf w.human).map MeshObj.active_material = mats.map some ∧
      doc.materials.map MaterialRecord.material_name
        = mats.map (fun mat => good_material_name mat.name)) ∧
    docBlocks doc
      = EggBlock.commentB doc.comment ::
          (doc.textures.map EggBlock.textureB ++ doc.materials.map EggBlock.materialB
            ++ [EggBlock.groupsB doc.groups]) := by
  have hwm : write_materials (meshesOf w.human) = .ok doc.materials := by
    simp only [produce_egg] at h
    split at h
    · exact absurd h (by simp)
    · split at h
      · exact absurd h (by simp)
      · split at h
        · exact absurd h (by simp)
        · have hd := Except.ok.inj h
          subst hd
          assumption
  exact ⟨hwm, write_materials_spec _ _ hwm, rfl⟩

/-- Instantiation of the C8 theorem at a concrete two-mesh scene sharing
one material; the produce_egg hypothesis is discharged by evaluation. -/
theorem c8_materials_amended_witness :
    ∃ doc, produce_egg c8worker "scene.blend" (fmtFixed 4) = .ok doc ∧
      write_materials (meshesOf c8worker.human) = .ok doc.materials := by
  refine ⟨_, rfl, ?_⟩
  exact (c8_materials_amended c8worker "scene.blend" (fmtFixed 4) _ rfl).1

/-! ## Claim C9 -/

/-- C9: for a texture image whose color-space setting is not sRGB,
computing the format field does not yield an empty string with a
diagnostic — the diagnostic itself reads the undefined bare name
colorspace_settings, so the call raises NameError and the export
aborts instead of continuing. -/
theorem c9_colorspace_nameerror (image : ImageData)
    (h : image.colorspace_name ≠ "sRGB") :
    get_image_format image = .error "NameError" ∧
    ∀ r : String, get_image_format image ≠ .ok r := by
  unfold get_image_format
  rw [if_neg h]
  exact ⟨rfl, fun r hc => Except.noConfusion hc⟩

/-- Instantiation of the C9 theorem at the Non-Color sample image. -/
theorem c9_colorspace_nameerror_witness :
    sampleImageLinear.colorspace_name ≠ "sRGB" ∧
    get_image_format sampleImageLinear = .error "NameError" :=
  ⟨by decide, (c9_colorspace_nameerror sampleImageLinear (by decide)).1⟩

/-! ## Claim C10 -/

/-- C10: the vertex-pool writer does not emit a record for every vertex
without failing: on a mesh with one vertex group and a vertex belonging
to no group, _mesh_to_weight_dict creates no entry for that vertex, and
the lookup weight_dict[vertex.index] raises KeyError; the claimed empty
weight set is never produced. -/
theorem c10_groupless_vertex_keyerror :
    write_vertexPool c10mesh = .error "KeyError" ∧
    (∃ v, v ∈ c10mesh.vertices ∧ v.groups = []) ∧
    c10mesh.vertex_groups = ["Bone"] :=
  ⟨rfl, ⟨mkVert 0 [], List.mem_cons_self _ _, rfl⟩, rfl⟩

end EggExport
